import Mathlib

/-!
Verification of the brainfuck compile-then-execute pipeline (src/brainfuck.rs,
src/main.rs): opcode lexing, bracket validation, run-length compression,
jump resolution, and the fetch-decode-execute interpreter loop.

Machine-integer conventions of the embedding:
* `u8` cell values are naturals; the source stores them through
  `as u8` truncation, embedded as an explicit `% 256` after the `usize`
  (release-mode, wrapping) arithmetic `% 2 ^ 64`.
* `usize` run counts, the data pointer and instruction indices are naturals,
  `isize` quantities (the instruction pointer, the underflow scratch value)
  are integers.  The source's `data_pointer += n` cannot wrap a real
  machine's `usize` (tape and program live in one address space), so pointer
  arithmetic is embedded exactly; cell arithmetic, whose wrapping is the
  intended semantics, carries the explicit moduli.
* The process-level panics (`panic_if_overflow`, `panic_if_underflow`,
  slice index out of bounds, `unwrap` on an empty bind stack and the
  `assert!` in `bind`) are embedded as explicit fault / `Option.none`
  outcomes.
* `stdin` is a finite list of bytes already read ahead; `print!` output is
  the growing list of bytes written.  `print!("{}", v as char)` writes the
  UTF-8 encoding of the Unicode code point `v`, which is two bytes for
  `128 ≤ v ≤ 255`; `utf8Encode` embeds exactly that.
-/

/-- The eight opcodes of `enum OpCode` in src/brainfuck.rs. -/
inductive OpCode where
  | IncrementPointer
  | DecrementPointer
  | IncrementValue
  | DecrementValue
  | PutChar
  | GetChar
  | LoopHead
  | LoopEnd
  deriving DecidableEq, Repr

/-- `enum Instruction` in src/brainfuck.rs: the lowered executable form. -/
inductive Instruction where
  | IncrementPointer (n : Nat)
  | DecrementPointer (n : Nat)
  | IncrementValue (n : Nat)
  | DecrementValue (n : Nat)
  | PutChar
  | GetChar
  | LoopHead (endIndex : Nat)
  | LoopEnd (headIndex : Nat)
  deriving DecidableEq, Repr

/-- `usize::MAX`, the placeholder jump target used by `OpCode::as_instruction`. -/
def usizeMax : Nat := 2 ^ 64 - 1

namespace OpCode

/-- `OpCode::parse`: the fixed character-to-opcode table. -/
def parse (c : Char) : Option OpCode :=
  if c = '>' then some .IncrementPointer
  else if c = '<' then some .DecrementPointer
  else if c = '+' then some .IncrementValue
  else if c = '-' then some .DecrementValue
  else if c = '.' then some .PutChar
  else if c = ',' then some .GetChar
  else if c = '[' then some .LoopHead
  else if c = ']' then some .LoopEnd
  else none

/-- `OpCode::as_instruction`: the default (count-1 / bare / placeholder) form. -/
def as_instruction : OpCode → Instruction
  | .DecrementPointer => .DecrementPointer 1
  | .IncrementPointer => .IncrementPointer 1
  | .DecrementValue => .DecrementValue 1
  | .IncrementValue => .IncrementValue 1
  | .PutChar => .PutChar
  | .GetChar => .GetChar
  | .LoopHead => .LoopHead usizeMax
  | .LoopEnd => .LoopEnd usizeMax

/-- `OpCode::is_run_length_optimizable`: the four repetition-eligible kinds. -/
def is_run_length_optimizable : OpCode → Bool
  | .DecrementPointer | .IncrementPointer | .DecrementValue | .IncrementValue => true
  | _ => false

/-- `OpCode::create_optimized_instruction`.  The source asserts
`is_run_length_optimizable` and panics on the other four kinds; every call
site guards with that predicate, so the catch-all branch is unreachable. -/
def create_optimized_instruction (c : OpCode) (n : Nat) : Instruction :=
  match c with
  | .DecrementPointer => .DecrementPointer n
  | .IncrementPointer => .IncrementPointer n
  | .DecrementValue => .DecrementValue n
  | .IncrementValue => .IncrementValue n
  | _ => c.as_instruction

end OpCode

/-- Run-length encoding of maximal runs: the grouping performed by
itertools' `group_by` in `Program::bind` (each pair is one maximal run of
a repeated opcode together with its length). -/
def rle : List OpCode → List (OpCode × Nat)
  | [] => []
  | c :: rest =>
    match rle rest with
    | [] => [(c, 1)]
    | (d, n) :: t => if c = d then (c, n + 1) :: t else (c, 1) :: (d, n) :: t

/-- The instructions emitted for one maximal run in `Program::bind`:
`match group.count() { 1 => default form, n => counted form when
optimizable, else n unit forms }`. -/
def chunkInstrs (r : OpCode × Nat) : List Instruction :=
  match r.2 with
  | 1 => [r.1.as_instruction]
  | n =>
    if r.1.is_run_length_optimizable then [r.1.create_optimized_instruction n]
    else List.replicate n r.1.as_instruction

/-- The run-length-compression half of `Program::bind`. -/
def optimize (ops : List OpCode) : List Instruction :=
  (rle ops).flatMap chunkInstrs

/-- The jump-resolution loop of `Program::bind`, iterating over the
compressed instruction list with an explicit stack of pending loop-head
indices while writing resolved targets into a copy.  `none` models the
panics of the source (`unwrap` on an empty stack, the final
`assert!(loop_head_address_stack.is_empty())`). -/
def bindGo (pending : List Nat) (arr : List Instruction) (i : Nat) :
    List Instruction → Option (List Instruction)
  | [] => if pending = [] then some arr else none
  | ins :: rest =>
    match ins with
    | .LoopHead _ => bindGo (i :: pending) arr (i + 1) rest
    | .LoopEnd _ =>
      match pending with
      | [] => none
      | p :: pending' =>
        bindGo pending' ((arr.set i (.LoopEnd p)).set p (.LoopHead i)) (i + 1) rest
    | _ => bindGo pending arr (i + 1) rest

/-- Jump resolution over a whole instruction list. -/
def bindLoops (xs : List Instruction) : Option (List Instruction) :=
  bindGo [] xs 0 xs

/-- `struct Program`: an immutable sequence of instructions. -/
structure Program where
  instructions : List Instruction
  deriving DecidableEq, Repr

namespace Program

/-- `Program::has_balanced_brackets`'s counter walk (signed counter,
immediate failure when it goes negative). -/
def hbbGo : Int → List OpCode → Bool
  | k, [] => k = 0
  | k, c :: rest =>
    match c with
    | .LoopHead => hbbGo (k + 1) rest
    | .LoopEnd => if k - 1 < 0 then false else hbbGo (k - 1) rest
    | _ => hbbGo k rest

/-- `Program::has_balanced_brackets`. -/
def has_balanced_brackets (op_codes : List OpCode) : Bool :=
  hbbGo 0 op_codes

/-- `Program::check`. -/
def check (op_codes : List OpCode) : Bool :=
  has_balanced_brackets op_codes

/-- `Program::bind`: run-length compression followed by jump resolution
(`none` models the panic paths, which are unreachable after `check`). -/
def bind (op_codes : List OpCode) : Option (List Instruction) :=
  bindLoops (optimize op_codes)

/-- `Program::parse`: lex, validate, lower. -/
def parse (code : List Char) : Option Program :=
  let op_codes := code.filterMap OpCode.parse
  if check op_codes then (bind op_codes).map Program.mk else none

end Program

/-- The interpreter's mutable state in `Program::run`: instruction pointer
(`isize`), data pointer (`usize`), the tape, and the byte streams of the
two I/O sinks (`input` = bytes still unread on stdin, `output` = bytes
written so far). -/
structure Config where
  ip : Int
  dp : Nat
  tape : List Nat
  input : List Nat
  output : List Nat
  deriving DecidableEq, Repr

/-- The three ways `Program::run` can abort the process: the two explicit
pointer-fault panics and a slice access `memory[data_pointer]` out of
bounds. -/
inductive Fault where
  | pointerOverflow
  | pointerUnderflow
  | indexOutOfBounds
  deriving DecidableEq, Repr

/-- Result of one loop iteration of `Program::run`. -/
inductive StepResult where
  | next (c : Config)
  | fault (f : Fault)
  deriving DecidableEq, Repr

/-- UTF-8 encoding of a code point below 0x800, as written by
`print!("{}", v as char)`: one byte below 0x80, two bytes from 0x80. -/
def utf8Encode (v : Nat) : List Nat :=
  if v < 128 then [v] else [192 + v / 64, 128 + v % 64]

/-- One iteration of the `match current_instruction` dispatch in
`Program::run`, acting on the given instruction. -/
def stepInstr (ins : Instruction) (cfg : Config) : StepResult :=
  match ins with
  | .IncrementPointer n =>
    let dp' := cfg.dp + n
    if cfg.tape.length ≤ dp' then .fault .pointerOverflow
    else .next { cfg with dp := dp', ip := cfg.ip + 1 }
  | .DecrementPointer n =>
    let next_value : Int := (cfg.dp : Int) - (n : Int)
    if next_value < 0 then .fault .pointerUnderflow
    else .next { cfg with dp := next_value.toNat, ip := cfg.ip + 1 }
  | .IncrementValue n =>
    match cfg.tape[cfg.dp]? with
    | none => .fault .indexOutOfBounds
    | some v =>
      .next { cfg with tape := cfg.tape.set cfg.dp ((v + n) % 2 ^ 64 % 256),
                       ip := cfg.ip + 1 }
  | .DecrementValue n =>
    match cfg.tape[cfg.dp]? with
    | none => .fault .indexOutOfBounds
    | some v =>
      .next { cfg with tape := cfg.tape.set cfg.dp
                         ((((v : Int) - (n : Int)) % 2 ^ 64).toNat % 256),
                       ip := cfg.ip + 1 }
  | .PutChar =>
    match cfg.tape[cfg.dp]? with
    | none => .fault .indexOutOfBounds
    | some v =>
      .next { cfg with output := cfg.output ++ utf8Encode v, ip := cfg.ip + 1 }
  | .GetChar =>
    match cfg.input with
    | [] => .next cfg
    | b :: rest =>
      match cfg.tape[cfg.dp]? with
      | none => .fault .indexOutOfBounds
      | some _ =>
        .next { cfg with tape := cfg.tape.set cfg.dp b, input := rest,
                         ip := cfg.ip + 1 }
  | .LoopHead loop_end_address =>
    match cfg.tape[cfg.dp]? with
    | none => .fault .indexOutOfBounds
    | some v =>
      if v = 0 then .next { cfg with ip := (loop_end_address : Int) + 1 }
      else .next { cfg with ip := cfg.ip + 1 }
  | .LoopEnd loop_start_address =>
    match cfg.tape[cfg.dp]? with
    | none => .fault .indexOutOfBounds
    | some v =>
      if v = 0 then .next { cfg with ip := cfg.ip + 1 }
      else .next { cfg with ip := (loop_start_address : Int) }

/-- Outcome of running the `while` loop of `Program::run` with a fuel
bound: natural termination (the instruction pointer left
`[0, instructions.len())`), a process-aborting fault, or fuel exhaustion. -/
inductive RunResult where
  | done (c : Config)
  | fault (f : Fault)
  | outOfFuel
  deriving DecidableEq, Repr

/-- The `while 0 <= instruction_pointer && instruction_pointer < len` loop
of `Program::run`, fuelled. -/
def runFuel (prog : List Instruction) : Nat → Config → RunResult
  | 0, _ => .outOfFuel
  | fuel + 1, cfg =>
    if h : 0 ≤ cfg.ip ∧ cfg.ip < (prog.length : Int) then
      match stepInstr (prog.get ⟨cfg.ip.toNat, by omega⟩) cfg with
      | .next c => runFuel prog fuel c
      | .fault f => .fault f
    else .done cfg

/-- The start state of `Program::run` (both pointers zero, nothing written),
with the caller-supplied tape and pending stdin bytes. -/
def initConfig (tape input : List Nat) : Config :=
  { ip := 0, dp := 0, tape := tape, input := input, output := [] }

/-- The instruction kinds that unconditionally read or write
`memory[data_pointer]` on the very first cycle they execute (`GetChar`
touches the cell only after a stdin byte has actually been read). -/
def cellAccessing : Instruction → Bool
  | .IncrementValue _ | .DecrementValue _ | .PutChar | .LoopHead _ | .LoopEnd _ => true
  | _ => false

/-- The bracket-event subsequence of an opcode list (`true` = loop-begin,
`false` = loop-end): the only part of the input that bracket validation and
jump resolution inspect. -/
def opEvents (ops : List OpCode) : List Bool :=
  ops.filterMap fun c =>
    match c with
    | .LoopHead => some true
    | .LoopEnd => some false
    | _ => none

/-- The bracket-event subsequence of an instruction list. -/
def loopEvents (xs : List Instruction) : List Bool :=
  xs.filterMap fun i =>
    match i with
    | .LoopHead _ => some true
    | .LoopEnd _ => some false
    | _ => none

/-- Dyck-word check for a bracket-event sequence starting with `k` open
brackets: `true` exactly when no close-event ever exceeds the opens and
everything is closed at the end. -/
def dyck : Nat → List Bool → Bool
  | k, [] => k = 0
  | k, true :: r => dyck (k + 1) r
  | k, false :: r =>
    match k with
    | 0 => false
    | k' + 1 => dyck k' r

/-- The compiled form of the transfer-loop scenario source
"++>+<[->+<]". -/
def transferProgram : List Instruction :=
  [.IncrementValue 2, .IncrementPointer 1, .IncrementValue 1, .DecrementPointer 1,
   .LoopHead 9, .DecrementValue 1, .IncrementPointer 1, .IncrementValue 1,
   .DecrementPointer 1, .LoopEnd 4]

/-- A unit of the compression correspondence: one compressed instruction,
covering `count` consecutive naive instructions.  Loop and I/O units always
have count 1; a maximal run of one of the four repetition-eligible opcodes
is a single unit carrying the whole run length. -/
def units (ops : List OpCode) : List (OpCode × Nat) :=
  (rle ops).flatMap fun r =>
    if r.1.is_run_length_optimizable then [r] else List.replicate r.2 (r.1, 1)

/-- The one compressed instruction of a unit. -/
def unitInstr (r : OpCode × Nat) : Instruction :=
  match r.1 with
  | .IncrementPointer => .IncrementPointer r.2
  | .DecrementPointer => .DecrementPointer r.2
  | .IncrementValue => .IncrementValue r.2
  | .DecrementValue => .DecrementValue r.2
  | .PutChar => .PutChar
  | .GetChar => .GetChar
  | .LoopHead => .LoopHead usizeMax
  | .LoopEnd => .LoopEnd usizeMax

/-- The naive (one-instruction-per-opcode) instructions of a unit. -/
def expandUnit (r : OpCode × Nat) : List Instruction :=
  List.replicate r.2 r.1.as_instruction

/-- Position of the i-th unit's first instruction inside the naive
instruction stream: the sum of the counts of the preceding units. -/
def npos : List (OpCode × Nat) → Nat → Nat
  | _, 0 => 0
  | [], _ + 1 => 0
  | r :: t, i + 1 => r.2 + npos t i

/-- Well-formedness of a unit list: counts are positive, and units of
non-repetition-eligible kinds (loops and I/O) have count exactly 1. -/
def UnitsWF (u : List (OpCode × Nat)) : Prop :=
  ∀ r ∈ u, 1 ≤ r.2 ∧ (r.1.is_run_length_optimizable = false → r.2 = 1)

/-- Mid-resolution state of one unit position `j` during the simultaneous
walk of the jump-resolution loop over the compressed stream (array `aX`,
pending stack `sX`, next unit `i`) and over the naive stream (array `aY`):
either `j` is still unbound (loop-begins only while on the stack or not yet
scanned, loop-ends only when not yet scanned), or it has been bound to its
partner, mutually, in both arrays. -/
def PairState (u : List (OpCode × Nat)) (i : Nat) (sX : List Nat)
    (aX aY : List Instruction) (j : Nat) : Prop :=
  ∀ r, u[j]? = some r →
    ((r.1 = .LoopHead → (j ∈ sX ∨ i ≤ j)) ∧ (r.1 = .LoopEnd → i ≤ j) ∧
      aX[j]? = some (unitInstr r) ∧
      ∀ k, k < r.2 → aY[npos u j + k]? = some r.1.as_instruction) ∨
    (r.1 = .LoopHead ∧ j ∉ sX ∧ ∃ e re, e < i ∧ j < e ∧ u[e]? = some re ∧
      re.1 = .LoopEnd ∧
      aX[j]? = some (.LoopHead e) ∧ aX[e]? = some (.LoopEnd j) ∧
      aY[npos u j]? = some (.LoopHead (npos u e)) ∧
      aY[npos u e]? = some (.LoopEnd (npos u j))) ∨
    (r.1 = .LoopEnd ∧ j < i ∧ ∃ p rp, p < j ∧ p ∉ sX ∧ u[p]? = some rp ∧
      rp.1 = .LoopHead ∧
      aX[j]? = some (.LoopEnd p) ∧ aX[p]? = some (.LoopHead j) ∧
      aY[npos u j]? = some (.LoopEnd (npos u p)) ∧
      aY[npos u p]? = some (.LoopHead (npos u j)))

/-- Invariant of the simultaneous jump-resolution walk. -/
def BindInv (u : List (OpCode × Nat)) (i : Nat) (sX : List Nat)
    (aX aY : List Instruction) : Prop :=
  aX.length = u.length ∧ aY.length = npos u u.length ∧ sX.Nodup ∧
  (∀ p ∈ sX, p < i ∧ ∃ rp, u[p]? = some rp ∧ rp.1 = .LoopHead) ∧
  ∀ j, j < u.length → PairState u i sX aX aY j

/-- Final correspondence between the bound compressed stream `C` and the
bound naive stream `Nv` at unit `j`: a non-loop unit is the one compressed
instruction `unitInstr` covering `count` naive unit instructions; loop
units are mutually bound pairs whose compressed targets are unit indices
and whose naive targets are the `npos`-images of those indices. -/
def UnitCorr (u : List (OpCode × Nat)) (C Nv : List Instruction) (j : Nat) : Prop :=
  ∀ r, u[j]? = some r →
    ((r.1 ≠ .LoopHead ∧ r.1 ≠ .LoopEnd) →
      C[j]? = some (unitInstr r) ∧
      ∀ k, k < r.2 → Nv[npos u j + k]? = some r.1.as_instruction) ∧
    (r.1 = .LoopHead → ∃ e re, e < u.length ∧ j < e ∧ u[e]? = some re ∧
      re.1 = .LoopEnd ∧
      C[j]? = some (.LoopHead e) ∧ C[e]? = some (.LoopEnd j) ∧
      Nv[npos u j]? = some (.LoopHead (npos u e)) ∧
      Nv[npos u e]? = some (.LoopEnd (npos u j))) ∧
    (r.1 = .LoopEnd → ∃ p rp, p < j ∧ u[p]? = some rp ∧ rp.1 = .LoopHead ∧
      C[j]? = some (.LoopEnd p) ∧ C[p]? = some (.LoopHead j) ∧
      Nv[npos u j]? = some (.LoopEnd (npos u p)) ∧
      Nv[npos u p]? = some (.LoopHead (npos u j)))

/-- Exactly `k` successful (non-faulting, in-range) iterations of the
interpreter loop. -/
def stepsN (prog : List Instruction) : Nat → Config → Option Config
  | 0, cfg => some cfg
  | k + 1, cfg =>
    if h : 0 ≤ cfg.ip ∧ cfg.ip < (prog.length : Int) then
      match stepInstr (prog.get ⟨cfg.ip.toNat, by omega⟩) cfg with
      | .next c => stepsN prog k c
      | .fault _ => none
    else none

/-- Simulation relation between an execution state of the compressed
stream (at unit boundary `i`) and one of the naive stream (at the naive
position of unit `i`): same data pointer, tape and I/O streams. -/
def SimRel (u : List (OpCode × Nat)) (i : Nat) (cfgC cfgN : Config) : Prop :=
  i ≤ u.length ∧ cfgC.ip = (i : Int) ∧ cfgN.ip = (npos u i : Int) ∧
  cfgC.dp = cfgN.dp ∧ cfgC.tape = cfgN.tape ∧ cfgC.input = cfgN.input ∧
  cfgC.output = cfgN.output

section Lemmas

/-- Truncating a wrapped `usize` sum to `u8` is plain mod-256 arithmetic. -/
theorem natWrapTruncate (x : Nat) : x % 2 ^ 64 % 256 = x % 256 :=
  Nat.mod_mod_of_dvd x (by norm_num)

/-- Truncating a wrapped `usize` difference to `u8` is plain mod-256
arithmetic on the integers. -/
theorem intWrapTruncate (x : Int) : (x % 2 ^ 64).toNat % 256 = (x % 256).toNat := by
  have h0 : (0 : Int) ≤ x % 2 ^ 64 := Int.emod_nonneg x (by norm_num)
  have h1 : x % 2 ^ 64 % 256 = x % 256 :=
    Int.emod_emod_of_dvd x (by norm_num)
  omega

/-- A `GetChar` facing exhausted input leaves the whole state unchanged. -/
theorem getChar_exhausted_step (cfg : Config) (hin : cfg.input = []) :
    stepInstr .GetChar cfg = .next cfg := by
  simp [stepInstr, hin]

/-- From a state whose current instruction is `GetChar` and whose input is
exhausted, the interpreter loop never leaves that state: every fuel bound
runs out. -/
theorem getChar_exhausted_stalls (prog : List Instruction) (cfg : Config)
    (h0 : 0 ≤ cfg.ip) (hget : prog[cfg.ip.toNat]? = some .GetChar)
    (hin : cfg.input = []) : ∀ fuel, runFuel prog fuel cfg = .outOfFuel := by
  intro fuel
  induction fuel with
  | zero => rfl
  | succ f ih =>
    have hlt : cfg.ip.toNat < prog.length := (List.getElem?_eq_some.mp hget).1
    have hrange : 0 ≤ cfg.ip ∧ cfg.ip < (prog.length : Int) := by omega
    have hgetv : prog.get ⟨cfg.ip.toNat, hlt⟩ = .GetChar := by
      have := (List.getElem?_eq_some.mp hget).2
      simpa [List.get_eq_getElem] using this
    rw [runFuel, dif_pos hrange]
    simp only [List.get_eq_getElem] at hgetv ⊢
    rw [hgetv, getChar_exhausted_step cfg hin]
    exact ih

/-- One successful iteration of the interpreter loop, peeled off the fuel. -/
theorem runFuel_step (prog : List Instruction) (f : Nat) (cfg cfg' : Config)
    (ins : Instruction) (h1 : 0 ≤ cfg.ip) (hins : prog[cfg.ip.toNat]? = some ins)
    (hstep : stepInstr ins cfg = .next cfg') :
    runFuel prog (f + 1) cfg = runFuel prog f cfg' := by
  have hlt : cfg.ip.toNat < prog.length := (List.getElem?_eq_some.mp hins).1
  rw [runFuel, dif_pos ⟨h1, by omega⟩]
  have hgetv : prog.get ⟨cfg.ip.toNat, hlt⟩ = ins := by
    have := (List.getElem?_eq_some.mp hins).2
    simpa [List.get_eq_getElem] using this
  simp only [List.get_eq_getElem] at hgetv ⊢
  rw [hgetv, hstep]

/-- The interpreter loop exits as soon as the instruction pointer leaves
the program. -/
theorem runFuel_done (prog : List Instruction) (f : Nat) (cfg : Config)
    (h : ¬(0 ≤ cfg.ip ∧ cfg.ip < (prog.length : Int))) :
    runFuel prog (f + 1) cfg = .done cfg := by
  rw [runFuel, dif_neg h]

end Lemmas

/-- C3: cell-increment(n) stores (old + n) mod 256 and cell-decrement(n)
stores (old - n) mod 256, wrapping with no fault; in particular 255 + 1
wraps to 0 and 0 - 1 wraps to 255. -/
theorem c3_cell_value_wrapping (cfg : Config) (n v : Nat)
    (hv : cfg.tape[cfg.dp]? = some v) :
    stepInstr (.IncrementValue n) cfg =
      .next { cfg with tape := cfg.tape.set cfg.dp ((v + n) % 256),
                       ip := cfg.ip + 1 } ∧
    stepInstr (.DecrementValue n) cfg =
      .next { cfg with tape := cfg.tape.set cfg.dp (((v : Int) - n) % 256).toNat,
                       ip := cfg.ip + 1 } ∧
    stepInstr (.IncrementValue 1) { ip := 0, dp := 0, tape := [255], input := [], output := [] } =
      .next { ip := 1, dp := 0, tape := [0], input := [], output := [] } ∧
    stepInstr (.DecrementValue 1) { ip := 0, dp := 0, tape := [0], input := [], output := [] } =
      .next { ip := 1, dp := 0, tape := [255], input := [], output := [] } := by
  refine ⟨?_, ?_, by decide, by decide⟩
  · simp [stepInstr, hv]
    rw [show (18446744073709551616 : Nat) = 2 ^ 64 by norm_num, natWrapTruncate]
  · simp [stepInstr, hv]
    rw [show (18446744073709551616 : Int) = 2 ^ 64 by norm_num, intWrapTruncate]

/-- C3 witness: the general statement applied at the concrete state with
cell value 250, incrementing and decrementing by 10. -/
theorem c3_cell_value_wrapping_witness :
    stepInstr (.IncrementValue 10) { ip := 0, dp := 0, tape := [250], input := [], output := [] } =
      .next { ip := 1, dp := 0, tape := [(250 + 10) % 256], input := [], output := [] } := by
  have h := c3_cell_value_wrapping
    { ip := 0, dp := 0, tape := [250], input := [], output := [] } 10 250 (by decide)
  simpa using h.1

/-- C4: pointer-forward(n) faults with overflow exactly when the new index
reaches the tape length and otherwise lands on exactly dp + n;
pointer-backward(n) faults with underflow exactly when the new index would
be negative and otherwise lands on exactly dp - n; landing on the last
cell (index length - 1) does not fault.  Pointer arithmetic is exact —
no wrapping is performed. -/
theorem c4_pointer_faults (cfg : Config) (n : Nat) :
    (stepInstr (.IncrementPointer n) cfg = .fault .pointerOverflow ↔
      cfg.tape.length ≤ cfg.dp + n) ∧
    (cfg.dp + n < cfg.tape.length →
      stepInstr (.IncrementPointer n) cfg =
        .next { cfg with dp := cfg.dp + n, ip := cfg.ip + 1 }) ∧
    (stepInstr (.DecrementPointer n) cfg = .fault .pointerUnderflow ↔
      (cfg.dp : Int) - n < 0) ∧
    ((n : Int) ≤ cfg.dp →
      stepInstr (.DecrementPointer n) cfg =
        .next { cfg with dp := cfg.dp - n, ip := cfg.ip + 1 }) ∧
    (cfg.dp + n + 1 = cfg.tape.length →
      stepInstr (.IncrementPointer n) cfg =
        .next { cfg with dp := cfg.dp + n, ip := cfg.ip + 1 }) := by
  refine ⟨?_, ?_, ?_, ?_, ?_⟩
  · constructor
    · intro h
      by_contra hlt
      simp [stepInstr, Nat.lt_of_not_le, hlt] at h
    · intro h
      simp [stepInstr, h]
  · intro h
    simp [stepInstr, Nat.not_le.mpr h]
  · constructor
    · intro h
      by_contra hlt
      simp [stepInstr, hlt] at h
    · intro h
      simp [stepInstr, h]
  · intro h
    have h1 : ¬ ((cfg.dp : Int) - n < 0) := by omega
    have h2 : ((cfg.dp : Int) - n).toNat = cfg.dp - n := by omega
    simp [stepInstr, h1, h2]
  · intro h
    simp [stepInstr, show ¬ cfg.tape.length ≤ cfg.dp + n by omega]

/-- C4 witness: on a 4-cell tape from dp = 1, forward by 3 overflows,
forward by 2 lands on the last cell, backward by 2 underflows from dp = 1,
and backward by 1 is exact. -/
theorem c4_pointer_faults_witness :
    stepInstr (.IncrementPointer 3) { ip := 0, dp := 1, tape := [0, 0, 0, 0], input := [], output := [] } =
      .fault .pointerOverflow ∧
    stepInstr (.IncrementPointer 2) { ip := 0, dp := 1, tape := [0, 0, 0, 0], input := [], output := [] } =
      .next { ip := 1, dp := 3, tape := [0, 0, 0, 0], input := [], output := [] } ∧
    stepInstr (.DecrementPointer 2) { ip := 0, dp := 1, tape := [0, 0, 0, 0], input := [], output := [] } =
      .fault .pointerUnderflow ∧
    stepInstr (.DecrementPointer 1) { ip := 0, dp := 1, tape := [0, 0, 0, 0], input := [], output := [] } =
      .next { ip := 1, dp := 0, tape := [0, 0, 0, 0], input := [], output := [] } := by
  have h3 := c4_pointer_faults { ip := 0, dp := 1, tape := [0, 0, 0, 0], input := [], output := [] } 3
  have h2 := c4_pointer_faults { ip := 0, dp := 1, tape := [0, 0, 0, 0], input := [], output := [] } 2
  have h1 := c4_pointer_faults { ip := 0, dp := 1, tape := [0, 0, 0, 0], input := [], output := [] } 1
  exact ⟨h3.1.mpr (by decide), h2.2.2.2.2 (by decide), h2.2.2.1.mpr (by decide),
    h1.2.2.2.1 (by decide)⟩

/-- C5: an input instruction facing exhausted input changes nothing — the
cell keeps its value and the instruction pointer stays put — so the same
instruction is retried every cycle and execution never terminates (every
fuel bound is exhausted, never reaching done or fault). -/
theorem c5_input_exhaustion_stalls (prog : List Instruction) (cfg : Config)
    (h0 : 0 ≤ cfg.ip) (hget : prog[cfg.ip.toNat]? = some .GetChar)
    (hin : cfg.input = []) :
    stepInstr .GetChar cfg = .next cfg ∧
    ∀ fuel, runFuel prog fuel cfg = .outOfFuel :=
  ⟨getChar_exhausted_step cfg hin, getChar_exhausted_stalls prog cfg h0 hget hin⟩

/-- C5 witness: the single-instruction program "," with empty stdin,
checked at fuel 7. -/
theorem c5_input_exhaustion_stalls_witness :
    stepInstr .GetChar (initConfig [0] []) = .next (initConfig [0] []) ∧
    runFuel [.GetChar] 7 (initConfig [0] []) = .outOfFuel := by
  have h := c5_input_exhaustion_stalls [.GetChar] (initConfig [0] [])
    (by decide) (by decide) (by decide)
  exact ⟨h.1, h.2 7⟩

/-- C6 counterexample: with the current cell holding 128, the output
instruction writes the two bytes [194, 128] (the UTF-8 encoding of
U+0080 produced by printing `128u8 as char`), not the single byte [128]
the claim requires. -/
theorem c6_counterexample :
    stepInstr .PutChar { ip := 0, dp := 0, tape := [128], input := [], output := [] } =
      .next { ip := 1, dp := 0, tape := [128], input := [], output := [194, 128] } ∧
    ([194, 128] : List Nat) ≠ [128] := by
  exact ⟨by decide, by decide⟩

/-- C6 amended: the output instruction writes the UTF-8 encoding of the
Unicode code point equal to the current cell's value — exactly one byte,
equal to the cell value, for values 0 through 127, and exactly two bytes
(neither equal to the cell value) for values 128 through 255. -/
theorem c6_output_utf8 (cfg : Config) (v : Nat)
    (hv : cfg.tape[cfg.dp]? = some v) :
    stepInstr .PutChar cfg =
      .next { cfg with output := cfg.output ++ utf8Encode v, ip := cfg.ip + 1 } ∧
    (v < 128 → utf8Encode v = [v]) ∧
    (128 ≤ v → utf8Encode v = [192 + v / 64, 128 + v % 64] ∧
      (utf8Encode v).length = 2) := by
  refine ⟨by simp [stepInstr, hv], fun h => by simp [utf8Encode, h], fun h => ?_⟩
  rw [utf8Encode, if_neg (by omega)]
  exact ⟨rfl, rfl⟩

/-- C6 amended witness: applied at cell value 65 (one byte, 'A') and at
cell value 200 (two bytes). -/
theorem c6_output_utf8_witness :
    stepInstr .PutChar { ip := 0, dp := 0, tape := [65], input := [], output := [] } =
      .next { ip := 1, dp := 0, tape := [65], input := [], output := [65] } ∧
    stepInstr .PutChar { ip := 0, dp := 0, tape := [200], input := [], output := [] } =
      .next { ip := 1, dp := 0, tape := [200], input := [], output := [195, 136] } := by
  have h65 := c6_output_utf8 { ip := 0, dp := 0, tape := [65], input := [], output := [] } 65 (by decide)
  have h200 := c6_output_utf8 { ip := 0, dp := 0, tape := [200], input := [], output := [] } 200 (by decide)
  have e65 : utf8Encode 65 = [65] := h65.2.1 (by decide)
  have e200 : utf8Encode 200 = [195, 136] := by
    have := (h200.2.2 (by decide)).1
    simpa using this
  constructor
  · rw [h65.1, e65]
    decide
  · rw [h200.1, e200]
    decide

/-- C10 counterexample: the compiled program "," run on the empty tape with
exhausted input stalls forever retrying the input instruction — it never
aborts with an out-of-bounds index access (nor with any other fault), so an
input first instruction does not imply the claimed abort. -/
theorem c10_counterexample :
    Program.parse [','] = some ⟨[.GetChar]⟩ ∧
    ¬ ∃ fuel, runFuel [.GetChar] fuel (initConfig [] []) = .fault .indexOutOfBounds := by
  constructor
  · decide
  · rintro ⟨fuel, hf⟩
    rw [getChar_exhausted_stalls [.GetChar] (initConfig [] []) (by decide) (by decide)
      (by decide) fuel] at hf
    exact RunResult.noConfusion hf

/-- C10 amended: run performs no emptiness check on the tape before the
first cell access — with a tape of length 0, a first instruction that is a
cell-increment, cell-decrement, output, loop-begin or loop-end (or an input
instruction for which a stdin byte is actually available) aborts on the
first cycle with an out-of-bounds index access at data pointer 0, not with
the pointer overflow/underflow fault; an input first instruction with
exhausted input instead stalls forever. -/
theorem c10_empty_tape_oob (code : List Char) (p : Program) (ins : Instruction)
    (input : List Nat) (hp : Program.parse code = some p)
    (hins : p.instructions.head? = some ins) :
    (cellAccessing ins = true ∨ (ins = .GetChar ∧ input ≠ []) →
      runFuel p.instructions 1 (initConfig [] input) = .fault .indexOutOfBounds) ∧
    (ins = .GetChar → ∀ fuel, runFuel p.instructions fuel (initConfig [] []) = .outOfFuel) := by
  obtain ⟨rest, hrest⟩ : ∃ rest, p.instructions = ins :: rest := by
    cases h : p.instructions with
    | nil => rw [h] at hins; exact Option.noConfusion hins
    | cons a t =>
      rw [h] at hins
      exact ⟨t, by simpa using congrArg (Option.getD · .PutChar) hins⟩
  constructor
  · intro hacc
    have hrange : 0 ≤ (initConfig [] input).ip ∧
        (initConfig [] input).ip < (p.instructions.length : Int) := by
      simp [initConfig, hrest]
    rw [runFuel, dif_pos hrange]
    have hget : p.instructions.get ⟨(initConfig [] input).ip.toNat, by
        simp [initConfig, hrest]⟩ = ins := by
      simp [initConfig, hrest]
    rw [hget]
    rcases hacc with hacc | ⟨hgc, hne⟩
    · cases ins <;> simp_all [cellAccessing, stepInstr, initConfig]
    · subst hgc
      cases input with
      | nil => exact absurd rfl hne
      | cons b bs => simp [stepInstr, initConfig]
  · intro hgc
    exact getChar_exhausted_stalls p.instructions (initConfig [] [])
      (by simp [initConfig]) (by simp [initConfig, hrest, hgc]) (by simp [initConfig])

/-- C10 amended witness: the compiled programs "+" (cell access aborts
out-of-bounds on the empty tape) and "," (with one stdin byte available the
input instruction also aborts out-of-bounds; with exhausted input it
stalls). -/
theorem c10_empty_tape_oob_witness :
    runFuel [.IncrementValue 1] 1 (initConfig [] []) = .fault .indexOutOfBounds ∧
    runFuel [.GetChar] 1 (initConfig [] [7]) = .fault .indexOutOfBounds ∧
    runFuel [.GetChar] 9 (initConfig [] []) = .outOfFuel := by
  have hplus := c10_empty_tape_oob ['+'] ⟨[.IncrementValue 1]⟩ (.IncrementValue 1) []
    (by decide) (by decide)
  have hcomma := c10_empty_tape_oob [','] ⟨[.GetChar]⟩ .GetChar [7]
    (by decide) (by decide)
  exact ⟨hplus.1 (Or.inl (by decide)), hcomma.1 (Or.inr ⟨rfl, by decide⟩),
    hcomma.2 rfl 9⟩

/-- Unfolding `rle` on a cons whose tail has no runs. -/
theorem rle_cons_of_nil {c : OpCode} {rest : List OpCode} (h : rle rest = []) :
    rle (c :: rest) = [(c, 1)] := by
  rw [rle, h]

/-- Unfolding `rle` on a cons whose tail starts a run. -/
theorem rle_cons_of_cons {c : OpCode} {rest : List OpCode} {d : OpCode} {n : Nat}
    {t : List (OpCode × Nat)} (h : rle rest = (d, n) :: t) :
    rle (c :: rest) = if c = d then (c, n + 1) :: t else (c, 1) :: (d, n) :: t := by
  rw [rle, h]

/-- Every run recorded by `rle` has positive length. -/
theorem rle_pos (ops : List OpCode) : ∀ r ∈ rle ops, 1 ≤ r.2 := by
  induction ops with
  | nil => intro r hr; simp [rle] at hr
  | cons c rest ih =>
    intro r hr
    rcases h : rle rest with _ | ⟨⟨d, n⟩, t⟩
    · rw [rle_cons_of_nil h] at hr
      simp at hr
      subst hr
      exact le_refl 1
    · rw [rle_cons_of_cons h] at hr
      by_cases hcd : c = d
      · rw [if_pos hcd] at hr
        rcases List.mem_cons.mp hr with h1 | h1
        · subst h1; exact Nat.le_add_left 1 n
        · exact ih r (h ▸ List.mem_cons_of_mem _ h1)
      · rw [if_neg hcd] at hr
        rcases List.mem_cons.mp hr with h1 | h1
        · subst h1; exact le_refl 1
        · exact ih r (h ▸ h1)

/-- Flattening the run-length encoding recovers the original list. -/
theorem rle_flatten (ops : List OpCode) :
    (rle ops).flatMap (fun r => List.replicate r.2 r.1) = ops := by
  induction ops with
  | nil => rfl
  | cons c rest ih =>
    rcases h : rle rest with _ | ⟨⟨d, n⟩, t⟩
    · rw [rle_cons_of_nil h]
      rw [h] at ih
      simp at ih
      simp [ih]
    · rw [rle_cons_of_cons h]
      rw [h] at ih
      by_cases hcd : c = d
      · subst hcd
        rw [if_pos rfl]
        simp only [List.flatMap_cons] at ih ⊢
        rw [List.replicate_succ]
        simpa using ih
      · rw [if_neg hcd]
        simp only [List.flatMap_cons] at ih ⊢
        simpa using ih

/-- The bracket events of a constant opcode run. -/
theorem opEventsReplicate (c : OpCode) (n : Nat) :
    opEvents (List.replicate n c) =
      match c with
      | .LoopHead => List.replicate n true
      | .LoopEnd => List.replicate n false
      | _ => [] := by
  induction n with
  | zero => cases c <;> rfl
  | succ m ih =>
    rw [List.replicate_succ]
    cases c <;> simp_all [opEvents, List.filterMap_cons, List.replicate_succ]

/-- The bracket events of a constant instruction run. -/
theorem loopEventsReplicate (ins : Instruction) (n : Nat) :
    loopEvents (List.replicate n ins) =
      match ins with
      | .LoopHead _ => List.replicate n true
      | .LoopEnd _ => List.replicate n false
      | _ => [] := by
  induction n with
  | zero => cases ins <;> rfl
  | succ m ih =>
    rw [List.replicate_succ]
    cases ins <;> simp_all [loopEvents, List.filterMap_cons, List.replicate_succ]

/-- Whether the jump-resolution loop succeeds depends only on the length of
the pending stack and the bracket-event subsequence still to be scanned. -/
theorem bindGo_isSome (rest : List Instruction) :
    ∀ (pending : List Nat) (arr : List Instruction) (i : Nat),
      (bindGo pending arr i rest).isSome = dyck pending.length (loopEvents rest) := by
  induction rest with
  | nil =>
    intro pending arr i
    cases pending <;> simp [bindGo, dyck, loopEvents]
  | cons ins rest ih =>
    intro pending arr i
    cases ins with
    | LoopHead e =>
      rw [show loopEvents (.LoopHead e :: rest) = true :: loopEvents rest from rfl]
      rw [show bindGo pending arr i (.LoopHead e :: rest) =
        bindGo (i :: pending) arr (i + 1) rest from rfl]
      rw [ih, dyck]
      rfl
    | LoopEnd p =>
      rw [show loopEvents (.LoopEnd p :: rest) = false :: loopEvents rest from rfl]
      cases pending with
      | nil => simp [bindGo, dyck]
      | cons q pending' =>
        rw [show bindGo (q :: pending') arr i (.LoopEnd p :: rest) =
          bindGo pending' ((arr.set i (.LoopEnd q)).set q (.LoopHead i)) (i + 1) rest from rfl]
        rw [ih]
        rfl
    | IncrementPointer n => exact ih pending arr (i + 1)
    | DecrementPointer n => exact ih pending arr (i + 1)
    | IncrementValue n => exact ih pending arr (i + 1)
    | DecrementValue n => exact ih pending arr (i + 1)
    | PutChar => exact ih pending arr (i + 1)
    | GetChar => exact ih pending arr (i + 1)

/-- The bracket-counter walk agrees with the Dyck check on the opcode
list's bracket events. -/
theorem hbbGo_dyck (ops : List OpCode) :
    ∀ k : Int, 0 ≤ k → Program.hbbGo k ops = dyck k.toNat (opEvents ops) := by
  induction ops with
  | nil =>
    intro k hk
    simp only [Program.hbbGo, dyck, opEvents, List.filterMap_nil]
    have : k = 0 ↔ k.toNat = 0 := by omega
    simp [this]
  | cons c rest ih =>
    intro k hk
    cases c with
    | LoopHead =>
      rw [show opEvents (.LoopHead :: rest) = true :: opEvents rest from rfl]
      rw [show Program.hbbGo k (.LoopHead :: rest) = Program.hbbGo (k + 1) rest from rfl]
      rw [ih (k + 1) (by omega), dyck, show (k + 1).toNat = k.toNat + 1 by omega]
    | LoopEnd =>
      rw [show opEvents (.LoopEnd :: rest) = false :: opEvents rest from rfl]
      rw [show Program.hbbGo k (.LoopEnd :: rest) =
        if k - 1 < 0 then false else Program.hbbGo (k - 1) rest from rfl]
      by_cases hz : k = 0
      · subst hz
        simp [dyck]
      · rw [if_neg (by omega), ih (k - 1) (by omega)]
        have hsucc : k.toNat = (k - 1).toNat + 1 := by omega
        rw [hsucc, dyck]
    | IncrementPointer => exact ih k hk
    | DecrementPointer => exact ih k hk
    | IncrementValue => exact ih k hk
    | DecrementValue => exact ih k hk
    | PutChar => exact ih k hk
    | GetChar => exact ih k hk

/-- The instructions emitted for one run have the same bracket events as
the run itself. -/
theorem loopEvents_chunkInstrs (c : OpCode) (n : Nat) :
    loopEvents (chunkInstrs (c, n)) = opEvents (List.replicate n c) := by
  rw [opEventsReplicate]
  cases c <;> rcases n with _ | _ | m <;>
    simp [chunkInstrs, loopEvents, opEvents, OpCode.as_instruction,
      OpCode.is_run_length_optimizable, OpCode.create_optimized_instruction,
      loopEventsReplicate, List.filterMap_cons]

/-- Run-length compression leaves the bracket-event subsequence intact. -/
theorem loopEvents_optimize (ops : List OpCode) :
    loopEvents (optimize ops) = opEvents ops := by
  have key : ∀ l : List (OpCode × Nat),
      loopEvents (l.flatMap chunkInstrs) =
        opEvents (l.flatMap fun r => List.replicate r.2 r.1) := by
    intro l
    induction l with
    | nil => rfl
    | cons r l ih =>
      simp only [List.flatMap_cons]
      rw [show ∀ a b : List Instruction, loopEvents (a ++ b) = loopEvents a ++ loopEvents b
        from fun a b => List.filterMap_append a b _]
      rw [show ∀ a b : List OpCode, opEvents (a ++ b) = opEvents a ++ opEvents b
        from fun a b => List.filterMap_append a b _]
      rw [ih]
      obtain ⟨c, n⟩ := r
      rw [loopEvents_chunkInstrs]
  rw [show optimize ops = (rle ops).flatMap chunkInstrs from rfl,
    key (rle ops), rle_flatten]

/-- After a successful bracket validation, the jump-resolution pass cannot
hit its panic paths. -/
theorem check_bind_isSome (ops : List OpCode) (h : Program.check ops = true) :
    (Program.bind ops).isSome = true := by
  rw [Program.bind, bindLoops, bindGo_isSome, loopEvents_optimize]
  rw [Program.check, Program.has_balanced_brackets, hbbGo_dyck ops 0 le_rfl] at h
  simpa using h

/-- `Program::parse` yields a program exactly when the bracket validation
accepts the lexed opcodes. -/
theorem parse_isSome_iff_check (code : List Char) :
    (∃ p, Program.parse code = some p) ↔
      Program.check (code.filterMap OpCode.parse) = true := by
  constructor
  · intro ⟨p, hp⟩
    by_contra hc
    rw [Program.parse] at hp
    simp only [Bool.not_eq_true] at hc
    rw [hc] at hp
    simp at hp
  · intro hc
    have hb := check_bind_isSome _ hc
    rcases ho : Program.bind (code.filterMap OpCode.parse) with _ | instrs
    · rw [ho] at hb
      simp at hb
    · refine ⟨⟨instrs⟩, ?_⟩
      rw [Program.parse]
      simp only [hc, if_true, ho]
      rfl

/-- Splitting a property of all take-fronts of a cons. -/
theorem forallTakeCons {α : Type} (c : α) (l : List α) (P : List α → Prop) :
    (∀ j, P ((c :: l).take j)) ↔ P [] ∧ ∀ j, P (c :: l.take j) := by
  constructor
  · intro h
    refine ⟨h 0, fun j => ?_⟩
    have := h (j + 1)
    rwa [List.take_succ_cons] at this
  · rintro ⟨h0, h⟩ j
    cases j with
    | zero => exact h0
    | succ j => rw [List.take_succ_cons]; exact h j

/-- A character lexes to a loop-begin exactly when it is the begin
bracket. -/
theorem opcodeParse_eq_loopHead {ch : Char} :
    OpCode.parse ch = some .LoopHead ↔ ch = '[' := by
  unfold OpCode.parse
  split_ifs <;> simp_all

/-- A character lexes to a loop-end exactly when it is the end bracket. -/
theorem opcodeParse_eq_loopEnd {ch : Char} :
    OpCode.parse ch = some .LoopEnd ↔ ch = ']' := by
  unfold OpCode.parse
  split_ifs <;> simp_all

/-- The counter walk over the lexed opcodes, started at `k ≥ 0`, accepts
exactly when the end brackets of every source-text front stay within `k`
plus its begin brackets, and the whole text closes `k` exactly. -/
theorem hbbGo_char (cs : List Char) :
    ∀ k : Int, 0 ≤ k →
      (Program.hbbGo k (cs.filterMap OpCode.parse) = true ↔
        ((∀ j, ((cs.take j).count ']' : Int) ≤ k + ((cs.take j).count '[' : Int)) ∧
         (k : Int) + cs.count '[' = cs.count ']')) := by
  induction cs with
  | nil =>
    intro k hk
    simp only [List.filterMap_nil, Program.hbbGo, decide_eq_true_eq, List.take_nil,
      List.count_nil, Nat.cast_zero]
    constructor
    · intro h
      exact ⟨fun j => by omega, by omega⟩
    · intro ⟨_, h⟩
      omega
  | cons ch cs ih =>
    intro k hk
    rw [forallTakeCons ch cs
      (fun l => ((l.count ']' : Int) ≤ k + ((l.count '[' : Int))))]
    by_cases h1 : ch = '['
    · subst h1
      rw [show List.filterMap OpCode.parse ('[' :: cs) =
        .LoopHead :: List.filterMap OpCode.parse cs by
          rw [List.filterMap_cons, opcodeParse_eq_loopHead.mpr rfl]]
      rw [show Program.hbbGo k (.LoopHead :: List.filterMap OpCode.parse cs) =
        Program.hbbGo (k + 1) (List.filterMap OpCode.parse cs) from rfl]
      rw [ih (k + 1) (by omega)]
      simp only [List.count_cons_self, List.count_cons_of_ne (by decide : ']' ≠ '[')]
      constructor
      · intro ⟨hall, hend⟩
        refine ⟨⟨by simpa using hk, fun j => ?_⟩, by push_cast; omega⟩
        have := hall j
        push_cast at this ⊢
        omega
      · intro ⟨⟨_, hall⟩, hend⟩
        refine ⟨fun j => ?_, by push_cast at hend ⊢; omega⟩
        have := hall j
        push_cast at this ⊢
        omega
    · by_cases h2 : ch = ']'
      · subst h2
        rw [show List.filterMap OpCode.parse (']' :: cs) =
          .LoopEnd :: List.filterMap OpCode.parse cs by
            rw [List.filterMap_cons, opcodeParse_eq_loopEnd.mpr rfl]]
        rw [show Program.hbbGo k (.LoopEnd :: List.filterMap OpCode.parse cs) =
          if k - 1 < 0 then false else Program.hbbGo (k - 1) (List.filterMap OpCode.parse cs)
          from rfl]
        simp only [List.count_cons_self, List.count_cons_of_ne (by decide : '[' ≠ ']')]
        by_cases hz : k = 0
        · subst hz
          rw [if_pos (by omega)]
          simp only [Bool.false_eq_true, false_iff]
          intro ⟨⟨_, hall⟩, _⟩
          have := hall 0
          simp at this
        · rw [if_neg (by omega), ih (k - 1) (by omega)]
          constructor
          · intro ⟨hall, hend⟩
            refine ⟨⟨by simpa using hk, fun j => ?_⟩, by push_cast at hend ⊢; omega⟩
            have := hall j
            push_cast at this ⊢
            omega
          · intro ⟨⟨_, hall⟩, hend⟩
            refine ⟨fun j => ?_, by push_cast at hend ⊢; omega⟩
            have := hall j
            push_cast at this ⊢
            omega
      · have hcount : ∀ l : List Char, ((ch :: l).count ']' = l.count ']') ∧
            ((ch :: l).count '[' = l.count '[') :=
          fun l => ⟨List.count_cons_of_ne (fun hh => h2 hh.symm) l,
            List.count_cons_of_ne (fun hh => h1 hh.symm) l⟩
        have hskip : Program.hbbGo k (List.filterMap OpCode.parse (ch :: cs)) =
            Program.hbbGo k (List.filterMap OpCode.parse cs) := by
          rw [List.filterMap_cons]
          rcases hp : OpCode.parse ch with _ | op
          · rfl
          · cases op
            case LoopHead => exact absurd (opcodeParse_eq_loopHead.mp hp) h1
            case LoopEnd => exact absurd (opcodeParse_eq_loopEnd.mp hp) h2
            all_goals rfl
        rw [hskip, ih k hk]
        constructor
        · intro ⟨hall, hend⟩
          refine ⟨⟨by simpa using hk, fun j => ?_⟩, ?_⟩
          · rw [(hcount (cs.take j)).1, (hcount (cs.take j)).2]
            exact hall j
          · rw [(hcount cs).1, (hcount cs).2]
            exact hend
        · intro ⟨⟨_, hall⟩, hend⟩
          refine ⟨fun j => ?_, ?_⟩
          · have := hall j
            rwa [(hcount (cs.take j)).1, (hcount (cs.take j)).2] at this
          · rwa [(hcount cs).1, (hcount cs).2] at hend

/-- C2: compilation succeeds if and only if, among the recognized bracket
characters of the source text, loop-begins and loop-ends are equinumerous
and no text front ever has more loop-ends than loop-begins; otherwise
`Program::parse` returns none. -/
theorem c2_parse_iff_balanced (code : List Char) :
    (∃ p, Program.parse code = some p) ↔
      (code.count '[' = code.count ']' ∧
       ∀ j, (code.take j).count ']' ≤ (code.take j).count '[') := by
  rw [parse_isSome_iff_check, Program.check, Program.has_balanced_brackets,
    hbbGo_char code 0 le_rfl]
  constructor
  · intro ⟨hall, hend⟩
    refine ⟨by omega, fun j => ?_⟩
    have := hall j
    omega
  · intro ⟨hend, hall⟩
    refine ⟨fun j => ?_, by omega⟩
    have := hall j
    omega
/-- Running the compiled transfer program on a tape beginning with two
zero cells ends after 16 steps with ip one past the program, having
moved 3 into cell 1; cells beyond the first two are untouched. -/
theorem transferProgram_run (rest : List Nat) :
    runFuel transferProgram 17 { ip := 0, dp := 0, tape := 0 :: 0 :: rest, input := [], output := [] } =
      .done { ip := 10, dp := 0, tape := 0 :: 3 :: rest, input := [], output := [] } := by
  have s0 : runFuel transferProgram 17 { ip := 0, dp := 0, tape := 0 :: 0 :: rest, input := [], output := [] } =
      runFuel transferProgram 16 { ip := 1, dp := 0, tape := 2 :: 0 :: rest, input := [], output := [] } :=
    runFuel_step transferProgram 16 _ _ (.IncrementValue 2) (by simp) (by rfl)
      (by simp [stepInstr])
  have s1 : runFuel transferProgram 16 { ip := 1, dp := 0, tape := 2 :: 0 :: rest, input := [], output := [] } =
      runFuel transferProgram 15 { ip := 2, dp := 1, tape := 2 :: 0 :: rest, input := [], output := [] } :=
    runFuel_step transferProgram 15 _ _ (.IncrementPointer 1) (by simp) (by rfl)
      (by simp [stepInstr])
  have s2 : runFuel transferProgram 15 { ip := 2, dp := 1, tape := 2 :: 0 :: rest, input := [], output := [] } =
      runFuel transferProgram 14 { ip := 3, dp := 1, tape := 2 :: 1 :: rest, input := [], output := [] } :=
    runFuel_step transferProgram 14 _ _ (.IncrementValue 1) (by simp) (by rfl)
      (by simp [stepInstr])
  have s3 : runFuel transferProgram 14 { ip := 3, dp := 1, tape := 2 :: 1 :: rest, input := [], output := [] } =
      runFuel transferProgram 13 { ip := 4, dp := 0, tape := 2 :: 1 :: rest, input := [], output := [] } :=
    runFuel_step transferProgram 13 _ _ (.DecrementPointer 1) (by simp) (by rfl)
      (by simp [stepInstr])
  have s4 : runFuel transferProgram 13 { ip := 4, dp := 0, tape := 2 :: 1 :: rest, input := [], output := [] } =
      runFuel transferProgram 12 { ip := 5, dp := 0, tape := 2 :: 1 :: rest, input := [], output := [] } :=
    runFuel_step transferProgram 12 _ _ (.LoopHead 9) (by simp) (by rfl)
      (by simp [stepInstr])
  have s5 : runFuel transferProgram 12 { ip := 5, dp := 0, tape := 2 :: 1 :: rest, input := [], output := [] } =
      runFuel transferProgram 11 { ip := 6, dp := 0, tape := 1 :: 1 :: rest, input := [], output := [] } :=
    runFuel_step transferProgram 11 _ _ (.DecrementValue 1) (by simp) (by rfl)
      (by simp [stepInstr])
  have s6 : runFuel transferProgram 11 { ip := 6, dp := 0, tape := 1 :: 1 :: rest, input := [], output := [] } =
      runFuel transferProgram 10 { ip := 7, dp := 1, tape := 1 :: 1 :: rest, input := [], output := [] } :=
    runFuel_step transferProgram 10 _ _ (.IncrementPointer 1) (by simp) (by rfl)
      (by simp [stepInstr])
  have s7 : runFuel transferProgram 10 { ip := 7, dp := 1, tape := 1 :: 1 :: rest, input := [], output := [] } =
      runFuel transferProgram 9 { ip := 8, dp := 1, tape := 1 :: 2 :: rest, input := [], output := [] } :=
    runFuel_step transferProgram 9 _ _ (.IncrementValue 1) (by simp) (by rfl)
      (by simp [stepInstr])
  have s8 : runFuel transferProgram 9 { ip := 8, dp := 1, tape := 1 :: 2 :: rest, input := [], output := [] } =
      runFuel transferProgram 8 { ip := 9, dp := 0, tape := 1 :: 2 :: rest, input := [], output := [] } :=
    runFuel_step transferProgram 8 _ _ (.DecrementPointer 1) (by simp) (by rfl)
      (by simp [stepInstr])
  have s9 : runFuel transferProgram 8 { ip := 9, dp := 0, tape := 1 :: 2 :: rest, input := [], output := [] } =
      runFuel transferProgram 7 { ip := 4, dp := 0, tape := 1 :: 2 :: rest, input := [], output := [] } :=
    runFuel_step transferProgram 7 _ _ (.LoopEnd 4) (by simp) (by rfl)
      (by simp [stepInstr])
  have s10 : runFuel transferProgram 7 { ip := 4, dp := 0, tape := 1 :: 2 :: rest, input := [], output := [] } =
      runFuel transferProgram 6 { ip := 5, dp := 0, tape := 1 :: 2 :: rest, input := [], output := [] } :=
    runFuel_step transferProgram 6 _ _ (.LoopHead 9) (by simp) (by rfl)
      (by simp [stepInstr])
  have s11 : runFuel transferProgram 6 { ip := 5, dp := 0, tape := 1 :: 2 :: rest, input := [], output := [] } =
      runFuel transferProgram 5 { ip := 6, dp := 0, tape := 0 :: 2 :: rest, input := [], output := [] } :=
    runFuel_step transferProgram 5 _ _ (.DecrementValue 1) (by simp) (by rfl)
      (by simp [stepInstr])
  have s12 : runFuel transferProgram 5 { ip := 6, dp := 0, tape := 0 :: 2 :: rest, input := [], output := [] } =
      runFuel transferProgram 4 { ip := 7, dp := 1, tape := 0 :: 2 :: rest, input := [], output := [] } :=
    runFuel_step transferProgram 4 _ _ (.IncrementPointer 1) (by simp) (by rfl)
      (by simp [stepInstr])
  have s13 : runFuel transferProgram 4 { ip := 7, dp := 1, tape := 0 :: 2 :: rest, input := [], output := [] } =
      runFuel transferProgram 3 { ip := 8, dp := 1, tape := 0 :: 3 :: rest, input := [], output := [] } :=
    runFuel_step transferProgram 3 _ _ (.IncrementValue 1) (by simp) (by rfl)
      (by simp [stepInstr])
  have s14 : runFuel transferProgram 3 { ip := 8, dp := 1, tape := 0 :: 3 :: rest, input := [], output := [] } =
      runFuel transferProgram 2 { ip := 9, dp := 0, tape := 0 :: 3 :: rest, input := [], output := [] } :=
    runFuel_step transferProgram 2 _ _ (.DecrementPointer 1) (by simp) (by rfl)
      (by simp [stepInstr])
  have s15 : runFuel transferProgram 2 { ip := 9, dp := 0, tape := 0 :: 3 :: rest, input := [], output := [] } =
      runFuel transferProgram 1 { ip := 10, dp := 0, tape := 0 :: 3 :: rest, input := [], output := [] } :=
    runFuel_step transferProgram 1 _ _ (.LoopEnd 4) (by simp) (by rfl)
      (by simp [stepInstr])
  have sdone : runFuel transferProgram 1 { ip := 10, dp := 0, tape := 0 :: 3 :: rest, input := [], output := [] } =
      .done { ip := 10, dp := 0, tape := 0 :: 3 :: rest, input := [], output := [] } :=
    runFuel_done transferProgram 0 _ (by simp [transferProgram])
  exact ((((((((((((((((s0).trans s1).trans s2).trans s3).trans s4).trans s5).trans s6).trans s7).trans s8).trans s9).trans s10).trans s11).trans s12).trans s13).trans s14).trans s15).trans sdone


/-- C9: the source "++>+<[->+<]" compiles, and running the compiled
program on an all-zero tape of any length at least 3 (data pointer
starting at 0) terminates with tape [0, 3, 0, ...], every cell beyond the
second still zero. -/
theorem c9_transfer_scenario :
    Program.parse ['+', '+', '>', '+', '<', '[', '-', '>', '+', '<', ']'] =
      some ⟨transferProgram⟩ ∧
    ∀ L : Nat, 3 ≤ L → ∃ (fuel : Nat) (d : Config),
      runFuel transferProgram fuel (initConfig (List.replicate L 0) []) = .done d ∧
      d.tape = 0 :: 3 :: List.replicate (L - 2) 0 := by
  refine ⟨by decide, fun L hL => ?_⟩
  obtain ⟨k, rfl⟩ : ∃ k, L = k + 3 := ⟨L - 3, by omega⟩
  have hrep : List.replicate (k + 3) (0 : Nat) = 0 :: 0 :: List.replicate (k + 1) 0 := by
    rw [show k + 3 = (k + 1) + 1 + 1 by omega, List.replicate_succ, List.replicate_succ]
  refine ⟨17, ⟨10, 0, 0 :: 3 :: List.replicate (k + 1) 0, [], []⟩, ?_, by simp⟩
  rw [show initConfig (List.replicate (k + 3) 0) [] =
    { ip := 0, dp := 0, tape := 0 :: 0 :: List.replicate (k + 1) 0,
      input := [], output := [] } by rw [initConfig, hrep]]
  exact transferProgram_run (List.replicate (k + 1) 0)

/-- C9 witness: the scenario applied at the minimal tape length 3. -/
theorem c9_transfer_scenario_witness :
    ∃ (fuel : Nat) (d : Config),
      runFuel transferProgram fuel (initConfig (List.replicate 3 0) []) = .done d ∧
      d.tape = 0 :: 3 :: List.replicate 1 0 :=
  c9_transfer_scenario.2 3 (by norm_num)

/-- Prepending a constant run to a list whose encoding does not begin with
that opcode adds exactly one run to the encoding. -/
theorem rle_replicate_append (c : OpCode) (ys : List OpCode) :
    ∀ n, 1 ≤ n → (∀ d m t, rle ys = (d, m) :: t → c ≠ d) →
      rle (List.replicate n c ++ ys) = (c, n) :: rle ys := by
  intro n
  induction n with
  | zero => omega
  | succ m ih =>
    intro _ hhead
    rcases Nat.eq_zero_or_pos m with hm | hm
    · subst hm
      rw [show List.replicate 1 c ++ ys = c :: ys from rfl]
      rcases hys : rle ys with _ | ⟨⟨d, m'⟩, t⟩
      · rw [rle_cons_of_nil hys]
      · rw [rle_cons_of_cons hys, if_neg (hhead d m' t hys)]
    · have hrec := ih hm hhead
      rw [List.replicate_succ, List.cons_append, rle_cons_of_cons hrec, if_pos rfl]

/-- On a flattened decomposition into nonempty runs of pairwise-distinct
adjacent opcodes — i.e. on maximal runs — `rle` recovers exactly that
decomposition. -/
theorem rle_of_runs (runs : List (OpCode × Nat))
    (hpos : ∀ r ∈ runs, 1 ≤ r.2)
    (hmax : List.Chain' (fun a b => a.1 ≠ b.1) runs) :
    rle (runs.flatMap fun r => List.replicate r.2 r.1) = runs := by
  induction runs with
  | nil => rfl
  | cons r runs ih =>
    obtain ⟨c, n⟩ := r
    rw [List.flatMap_cons]
    have hchain := (List.chain'_cons'.mp hmax)
    have htail := ih (fun x hx => hpos x (List.mem_cons_of_mem _ hx)) hchain.2
    rw [rle_replicate_append c _ n (hpos (c, n) (List.mem_cons_self _ _)) ?_, htail]
    intro d m t hdt
    rw [htail] at hdt
    have := hchain.1 (d, m)
    rw [hdt] at this
    exact this (by simp)

/-- C8: against any decomposition of the opcode stream into maximal runs
(nonempty runs, adjacent runs of distinct opcodes), the compression pass
emits: the unit instruction for a run of length 1; one counted instruction
for a longer run of a repetition-eligible opcode; and n separate unit
instructions for a longer run of any other opcode. -/
theorem c8_run_length_compression (runs : List (OpCode × Nat))
    (hpos : ∀ r ∈ runs, 1 ≤ r.2)
    (hmax : List.Chain' (fun a b => a.1 ≠ b.1) runs) :
    optimize (runs.flatMap fun r => List.replicate r.2 r.1) =
      runs.flatMap fun r =>
        if r.2 = 1 then [r.1.as_instruction]
        else if r.1.is_run_length_optimizable then [r.1.create_optimized_instruction r.2]
        else List.replicate r.2 r.1.as_instruction := by
  rw [optimize, rle_of_runs runs hpos hmax]
  clear hmax
  induction runs with
  | nil => rfl
  | cons r rs ih =>
    simp only [List.flatMap_cons]
    rw [ih (fun x hx => hpos x (List.mem_cons_of_mem _ hx))]
    have h1 : 1 ≤ r.2 := hpos r (List.mem_cons_self _ _)
    have hhead : chunkInstrs r =
        (if r.2 = 1 then [r.1.as_instruction]
         else if r.1.is_run_length_optimizable then [r.1.create_optimized_instruction r.2]
         else List.replicate r.2 r.1.as_instruction) := by
      rcases hn : r.2 with _ | _ | m
      · omega
      · rw [chunkInstrs, hn, if_pos rfl]
      · rw [chunkInstrs, hn, if_neg (by omega)]
        exact rfl
    rw [hhead]

/-- C8 witness: the compression characterization applied to the concrete
maximal-run decomposition of "+++..[": a counted instruction for the plus
run, two unit outputs, one bare loop-begin. -/
theorem c8_run_length_compression_witness :
    optimize (([(OpCode.IncrementValue, 3), (OpCode.PutChar, 2), (OpCode.LoopHead, 1)] :
        List (OpCode × Nat)).flatMap fun r => List.replicate r.2 r.1) =
      ([(OpCode.IncrementValue, 3), (OpCode.PutChar, 2), (OpCode.LoopHead, 1)] :
        List (OpCode × Nat)).flatMap fun r =>
        if r.2 = 1 then [r.1.as_instruction]
        else if r.1.is_run_length_optimizable then [r.1.create_optimized_instruction r.2]
        else List.replicate r.2 r.1.as_instruction :=
  c8_run_length_compression _ (by decide) (by simp [List.chain'_cons])

/-- `npos` one step at a time. -/
theorem npos_succ (u : List (OpCode × Nat)) :
    ∀ (i : Nat) (r : OpCode × Nat), u[i]? = some r →
      npos u (i + 1) = npos u i + r.2 := by
  induction u with
  | nil => intro i r hr; simp at hr
  | cons x t ih =>
    intro i r hr
    cases i with
    | zero =>
      simp at hr
      rw [show npos (x :: t) 1 = x.2 + npos t 0 from rfl, hr]
      simp [npos]
    | succ j =>
      simp only [List.getElem?_cons_succ] at hr
      rw [show npos (x :: t) (j + 1 + 1) = x.2 + npos t (j + 1) from rfl,
        show npos (x :: t) (j + 1) = x.2 + npos t j from rfl, ih j r hr]
      omega

/-- `npos` at index zero. -/
theorem npos_zero (u : List (OpCode × Nat)) : npos u 0 = 0 := by
  cases u <;> rfl

/-- `npos` is monotone. -/
theorem npos_mono (u : List (OpCode × Nat)) :
    ∀ i j, i ≤ j → npos u i ≤ npos u j := by
  induction u with
  | nil =>
    intro i j _
    cases i <;> cases j <;> simp [npos]
  | cons x t ih =>
    intro i j hij
    cases i with
    | zero => cases j with
      | zero => exact le_refl _
      | succ m => simp [npos]
    | succ n => cases j with
      | zero => omega
      | succ m =>
        rw [show npos (x :: t) (n + 1) = x.2 + npos t n from rfl,
          show npos (x :: t) (m + 1) = x.2 + npos t m from rfl]
        have := ih n m (by omega)
        omega

/-- With positive counts, `npos` is strictly monotone below the length. -/
theorem npos_strict (u : List (OpCode × Nat)) (hwf : UnitsWF u) :
    ∀ i j, i < j → i < u.length → npos u i < npos u j := by
  intro i j hij hi
  obtain ⟨r, hr⟩ : ∃ r, u[i]? = some r := by
    rcases h : u[i]? with _ | r
    · rw [List.getElem?_eq_none_iff] at h; omega
    · exact ⟨r, rfl⟩
  have hmem : r ∈ u := by
    rcases List.getElem?_eq_some.mp hr with ⟨hlt, hget⟩
    exact hget ▸ List.getElem_mem hlt
  have h1 : 1 ≤ r.2 := (hwf r hmem).1
  have := npos_succ u i r hr
  have := npos_mono u (i + 1) j hij
  omega

/-- The naive stream has length `npos u u.length`. -/
theorem flatMap_expandUnit_length (u : List (OpCode × Nat)) :
    (u.flatMap expandUnit).length = npos u u.length := by
  induction u with
  | nil => rfl
  | cons x t ih =>
    rw [List.flatMap_cons, List.length_append, List.length_cons,
      show npos (x :: t) (t.length + 1) = x.2 + npos t t.length from rfl, ih]
    simp [expandUnit]

/-- Indexing the naive stream inside unit `j`'s slot. -/
theorem flatMap_expandUnit_getElem (u : List (OpCode × Nat)) :
    ∀ (j : Nat) (r : OpCode × Nat) (k : Nat), u[j]? = some r → k < r.2 →
      (u.flatMap expandUnit)[npos u j + k]? = some r.1.as_instruction := by
  induction u with
  | nil => intro j r k hr _; simp at hr
  | cons x t ih =>
    intro j r k hr hk
    cases j with
    | zero =>
      simp at hr
      cases hr
      rw [List.flatMap_cons, show npos (x :: t) 0 + k = k by simp [npos]]
      rw [List.getElem?_append_left (by simpa [expandUnit] using hk)]
      simp [expandUnit, hk]
    | succ j =>
      simp only [List.getElem?_cons_succ] at hr
      rw [List.flatMap_cons,
        show npos (x :: t) (j + 1) + k = x.2 + (npos t j + k) by
          rw [show npos (x :: t) (j + 1) = x.2 + npos t j from rfl]; omega]
      rw [List.getElem?_append_right (by simp [expandUnit])]
      rw [show x.2 + (npos t j + k) - (expandUnit x).length = npos t j + k by
        simp [expandUnit]]
      exact ih j r k hr hk

/-- The default instruction of an opcode is its count-1 unit instruction. -/
theorem as_instruction_eq_unitInstr (c : OpCode) :
    c.as_instruction = unitInstr (c, 1) := by
  cases c <;> rfl

/-- For a repetition-eligible opcode, the counted instruction is the unit
instruction. -/
theorem create_optimized_eq_unitInstr (c : OpCode) (n : Nat)
    (h : c.is_run_length_optimizable = true) :
    c.create_optimized_instruction n = unitInstr (c, n) := by
  cases c <;> simp_all [OpCode.is_run_length_optimizable] <;> rfl

/-- The unit decomposition is well formed. -/
theorem units_wf (ops : List OpCode) : UnitsWF (units ops) := by
  intro r hr
  rw [units, List.mem_flatMap] at hr
  obtain ⟨c, hc, hrc⟩ := hr
  by_cases hopt : c.1.is_run_length_optimizable = true
  · rw [if_pos hopt] at hrc
    simp at hrc
    subst hrc
    exact ⟨(rle_pos ops r hc), fun hfalse => by
      rw [hopt] at hfalse
      exact Bool.noConfusion hfalse⟩
  · rw [if_neg hopt] at hrc
    have := List.eq_of_mem_replicate hrc
    subst this
    exact ⟨le_refl 1, fun _ => rfl⟩

/-- The compressed stream is the per-unit instruction map of the unit
decomposition. -/
theorem optimize_eq_map_unitInstr (ops : List OpCode) :
    optimize ops = (units ops).map unitInstr := by
  rw [optimize, units, List.map_flatMap]
  suffices h : ∀ l : List (OpCode × Nat), (∀ r ∈ l, 1 ≤ r.2) →
      l.flatMap chunkInstrs = l.flatMap fun r =>
        List.map unitInstr
          (if r.1.is_run_length_optimizable = true then [r]
           else List.replicate r.2 (r.1, 1)) from h (rle ops) (rle_pos ops)
  intro l hl
  induction l with
  | nil => rfl
  | cons r t ih =>
    simp only [List.flatMap_cons]
    rw [ih (fun x hx => hl x (List.mem_cons_of_mem _ hx))]
    congr 1
    obtain ⟨c, n⟩ := r
    have h1 : 1 ≤ n := hl (c, n) (List.mem_cons_self _ _)
    by_cases hopt : c.is_run_length_optimizable = true
    · rw [if_pos hopt]
      rcases hn : n with _ | _ | m
      · omega
      · subst hn
        rw [show chunkInstrs (c, 1) = [c.as_instruction] from rfl,
          as_instruction_eq_unitInstr]
        rfl
      · subst hn
        rw [show chunkInstrs (c, m + 1 + 1) =
          if c.is_run_length_optimizable = true
          then [c.create_optimized_instruction (m + 1 + 1)]
          else List.replicate (m + 1 + 1) c.as_instruction from rfl]
        rw [if_pos hopt, create_optimized_eq_unitInstr c _ hopt]
        rfl
    · rw [if_neg hopt, List.map_replicate]
      rcases hn : n with _ | _ | m
      · omega
      · subst hn
        rw [show chunkInstrs (c, 1) = [c.as_instruction] from rfl,
          as_instruction_eq_unitInstr]
        rfl
      · subst hn
        rw [show chunkInstrs (c, m + 1 + 1) =
          if c.is_run_length_optimizable = true
          then [c.create_optimized_instruction (m + 1 + 1)]
          else List.replicate (m + 1 + 1) c.as_instruction from rfl]
        rw [if_neg hopt, as_instruction_eq_unitInstr]

/-- Applying a singleton-valued function across a constant run. -/
theorem flatMap_replicate_singleton {A B : Type} (f : A → List B) (x : A) (y : B)
    (hf : f x = [y]) (n : Nat) :
    (List.replicate n x).flatMap f = List.replicate n y := by
  induction n with
  | zero => rfl
  | succ m ih => rw [List.replicate_succ, List.flatMap_cons, hf, ih, List.replicate_succ]; rfl

/-- The naive stream is the per-unit expansion of the unit decomposition. -/
theorem map_as_eq_flatMap_expandUnit (ops : List OpCode) :
    ops.map OpCode.as_instruction = (units ops).flatMap expandUnit := by
  conv_lhs => rw [← rle_flatten ops]
  rw [List.map_flatMap, units, List.flatMap_assoc]
  suffices h : ∀ l : List (OpCode × Nat), (∀ r ∈ l, 1 ≤ r.2) →
      (l.flatMap fun r => List.map OpCode.as_instruction (List.replicate r.2 r.1)) =
        l.flatMap fun r =>
          (if r.1.is_run_length_optimizable = true then [r]
           else List.replicate r.2 (r.1, 1)).flatMap expandUnit from
    h (rle ops) (rle_pos ops)
  intro l hl
  induction l with
  | nil => rfl
  | cons r t ih =>
    simp only [List.flatMap_cons]
    rw [ih (fun x hx => hl x (List.mem_cons_of_mem _ hx))]
    congr 1
    rw [List.map_replicate]
    by_cases hopt : r.1.is_run_length_optimizable = true
    · rw [if_pos hopt]
      simp [expandUnit]
    · rw [if_neg hopt,
        flatMap_replicate_singleton expandUnit (r.1, 1) r.1.as_instruction rfl]

/-- `npos` separates distinct unit indices. -/
theorem npos_ne (u : List (OpCode × Nat)) (hwf : UnitsWF u) {a b : Nat}
    (hab : a ≠ b) (ha : a < u.length) (hb : b < u.length) :
    npos u a ≠ npos u b := by
  rcases Nat.lt_or_ge a b with h | h
  · exact Nat.ne_of_lt (npos_strict u hwf a b h ha)
  · exact (Nat.ne_of_lt (npos_strict u hwf b a (by omega) hb)).symm

/-- A naive position strictly inside unit `j`'s slot differs from the
first naive position of any other unit. -/
theorem slot_ne (u : List (OpCode × Nat)) (hwf : UnitsWF u) {j i k : Nat}
    {r : OpCode × Nat} (hji : j ≠ i) (hi : i < u.length) (hj : j < u.length)
    (hr : u[j]? = some r) (hk : k < r.2) :
    npos u j + k ≠ npos u i := by
  have hsucc := npos_succ u j r hr
  rcases Nat.lt_or_ge j i with h | h
  · have h1 : npos u (j + 1) ≤ npos u i := npos_mono u (j + 1) i h
    omega
  · have h2 : npos u i < npos u (i + 1) := by
      obtain ⟨ri, hri⟩ : ∃ ri, u[i]? = some ri := by
        rcases hx : u[i]? with _ | ri
        · rw [List.getElem?_eq_none_iff] at hx; omega
        · exact ⟨ri, rfl⟩
      have hmem : ri ∈ u := by
        rcases List.getElem?_eq_some.mp hri with ⟨hlt, hget⟩
        exact hget ▸ List.getElem_mem hlt
      have := (hwf ri hmem).1
      have := npos_succ u i ri hri
      omega
    have h3 : npos u (i + 1) ≤ npos u j := npos_mono u (i + 1) j (by omega)
    omega

/-- The jump-resolution loop ignores a non-loop instruction. -/
theorem bindGo_cons_other (ins : Instruction)
    (hno : ∀ x : Nat, ins ≠ .LoopHead x ∧ ins ≠ .LoopEnd x)
    (s : List Nat) (a : List Instruction) (m : Nat) (l : List Instruction) :
    bindGo s a m (ins :: l) = bindGo s a (m + 1) l := by
  cases ins with
  | LoopHead x => exact absurd rfl (hno x).1
  | LoopEnd x => exact absurd rfl (hno x).2
  | _ => rfl

/-- The jump-resolution loop skips a run of non-loop instructions. -/
theorem bindGo_skip (ins : Instruction)
    (hno : ∀ x : Nat, ins ≠ .LoopHead x ∧ ins ≠ .LoopEnd x) :
    ∀ (n : Nat) (s : List Nat) (a : List Instruction) (m : Nat)
      (tail : List Instruction),
      bindGo s a m (List.replicate n ins ++ tail) = bindGo s a (m + n) tail := by
  intro n
  induction n with
  | zero => intro s a m tail; rfl
  | succ q ih =>
    intro s a m tail
    rw [List.replicate_succ, List.cons_append, bindGo_cons_other ins hno, ih]
    rw [show m + 1 + q = m + (q + 1) by omega]

/-- The unit instruction of a non-loop opcode is not a loop instruction. -/
theorem as_instruction_not_loop (c : OpCode) (h1 : c ≠ .LoopHead) (h2 : c ≠ .LoopEnd) :
    ∀ x : Nat, c.as_instruction ≠ .LoopHead x ∧ c.as_instruction ≠ .LoopEnd x := by
  intro x
  cases c <;> simp_all [OpCode.as_instruction]

/-- The compressed instruction of a non-loop unit is not a loop
instruction. -/
theorem unitInstr_not_loop (r : OpCode × Nat) (h1 : r.1 ≠ .LoopHead) (h2 : r.1 ≠ .LoopEnd) :
    ∀ x : Nat, unitInstr r ≠ .LoopHead x ∧ unitInstr r ≠ .LoopEnd x := by
  intro x
  obtain ⟨c, n⟩ := r
  cases c <;> simp_all [unitInstr]

/-- Index of a successful lookup is in range. -/
theorem getElem?_lt {α : Type} {l : List α} {i : Nat} {x : α}
    (h : l[i]? = some x) : i < l.length :=
  (List.getElem?_eq_some.mp h).1

/-- Scanning past a non-loop unit preserves the bind invariant. -/
theorem bindInv_skip (u : List (OpCode × Nat)) (i : Nat) (sX : List Nat)
    (aX aY : List Instruction) (ri : OpCode × Nat)
    (hinv : BindInv u i sX aX aY) (hri : u[i]? = some ri)
    (hH : ri.1 ≠ .LoopHead) (hE : ri.1 ≠ .LoopEnd) :
    BindInv u (i + 1) sX aX aY := by
  obtain ⟨hlX, hlY, hnd, hstk, hPS⟩ := hinv
  refine ⟨hlX, hlY, hnd, fun p hp => ⟨by have := (hstk p hp).1; omega, (hstk p hp).2⟩,
    fun j hj r hr => ?_⟩
  rcases hPS j hj r hr with ⟨h1, h2, h3, h4⟩ | hb | hb
  · left
    have hne : r.1 = .LoopHead ∨ r.1 = .LoopEnd → j ≠ i := by
      rintro hk rfl
      rw [hri] at hr
      cases hr
      rcases hk with hk | hk
      · exact hH hk
      · exact hE hk
    refine ⟨fun hk => ?_, fun hk => ?_, h3, h4⟩
    · rcases h1 hk with hm | hm
      · exact Or.inl hm
      · exact Or.inr (by have := hne (Or.inl hk); omega)
    · have := h2 hk
      have := hne (Or.inr hk)
      omega
  · right; left
    obtain ⟨ha, hb', e, re, h1, h2, h3, h4, h5, h6, h7, h8⟩ := hb
    exact ⟨ha, hb', e, re, by omega, h2, h3, h4, h5, h6, h7, h8⟩
  · right; right
    obtain ⟨ha, hb', p, rp, h1, h2, h3, h4, h5, h6, h7, h8⟩ := hb
    exact ⟨ha, by omega, p, rp, h1, h2, h3, h4, h5, h6, h7, h8⟩

/-- Pushing a loop-begin unit preserves the bind invariant. -/
theorem bindInv_push (u : List (OpCode × Nat)) (i : Nat) (sX : List Nat)
    (aX aY : List Instruction) (ri : OpCode × Nat)
    (hinv : BindInv u i sX aX aY) (hri : u[i]? = some ri)
    (hH : ri.1 = .LoopHead) :
    BindInv u (i + 1) (i :: sX) aX aY := by
  obtain ⟨hlX, hlY, hnd, hstk, hPS⟩ := hinv
  have hifresh : i ∉ sX := fun hm => by have := (hstk i hm).1; omega
  refine ⟨hlX, hlY, List.nodup_cons.mpr ⟨hifresh, hnd⟩, ?_, fun j hj r hr => ?_⟩
  · intro p hp
    rcases List.mem_cons.mp hp with rfl | hp'
    · exact ⟨by omega, ri, hri, hH⟩
    · exact ⟨by have := (hstk p hp').1; omega, (hstk p hp').2⟩
  · rcases hPS j hj r hr with ⟨h1, h2, h3, h4⟩ | hb | hb
    · left
      refine ⟨fun hk => ?_, fun hk => ?_, h3, h4⟩
      · rcases h1 hk with hm | hm
        · exact Or.inl (List.mem_cons_of_mem _ hm)
        · rcases Nat.eq_or_lt_of_le hm with rfl | hlt
          · exact Or.inl (List.mem_cons_self _ _)
          · exact Or.inr (by omega)
      · have hij : j ≠ i := by
          rintro rfl
          rw [hri] at hr
          cases hr
          rw [hH] at hk
          cases hk
        have := h2 hk
        omega
    · right; left
      obtain ⟨ha, hb', e, re, h1, h2, h3, h4, h5, h6, h7, h8⟩ := hb
      refine ⟨ha, fun hm => ?_, e, re, by omega, h2, h3, h4, h5, h6, h7, h8⟩
      rcases List.mem_cons.mp hm with rfl | hm'
      · omega
      · exact hb' hm'
    · right; right
      obtain ⟨ha, hb', p, rp, h1, h2, h3, h4, h5, h6, h7, h8⟩ := hb
      refine ⟨ha, by omega, p, rp, h1, fun hm => ?_, h3, h4, h5, h6, h7, h8⟩
      rcases List.mem_cons.mp hm with rfl | hm'
      · omega
      · exact h2 hm'

/-- Popping and mutually binding a loop-end unit with the most recent
pending loop-begin preserves the bind invariant. -/
theorem bindInv_pop (u : List (OpCode × Nat)) (hwf : UnitsWF u) (i p : Nat)
    (sX : List Nat) (aX aY : List Instruction) (ri : OpCode × Nat)
    (hinv : BindInv u i (p :: sX) aX aY) (hri : u[i]? = some ri)
    (hE : ri.1 = .LoopEnd) :
    BindInv u (i + 1) sX ((aX.set i (.LoopEnd p)).set p (.LoopHead i))
      ((aY.set (npos u i) (.LoopEnd (npos u p))).set (npos u p)
        (.LoopHead (npos u i))) := by
  obtain ⟨hlX, hlY, hnd, hstk, hPS⟩ := hinv
  have hiL : i < u.length := getElem?_lt hri
  obtain ⟨hpi, rp, hrp, hrpH⟩ := hstk p (List.mem_cons_self _ _)
  have hpL : p < u.length := getElem?_lt hrp
  have hpne : p ≠ i := by omega
  have hndp : p ∉ sX := (List.nodup_cons.mp hnd).1
  have hnd' : sX.Nodup := (List.nodup_cons.mp hnd).2
  have hNPne : npos u p ≠ npos u i := npos_ne u hwf hpne hpL hiL
  have hNIlen : npos u i < npos u u.length := npos_strict u hwf i u.length hiL hiL
  have hNPlen : npos u p < npos u u.length := npos_strict u hwf p u.length hpL hpL
  have haXi : ((aX.set i (.LoopEnd p)).set p (.LoopHead i))[i]? =
      some (.LoopEnd p) := by
    rw [List.getElem?_set_ne hpne, List.getElem?_set_self (by omega)]
  have haXp : ((aX.set i (.LoopEnd p)).set p (.LoopHead i))[p]? =
      some (.LoopHead i) := by
    rw [List.getElem?_set_self (by simp [List.length_set]; omega)]
  have haXo : ∀ j, j ≠ i → j ≠ p →
      ((aX.set i (.LoopEnd p)).set p (.LoopHead i))[j]? = aX[j]? := by
    intro j h1 h2
    rw [List.getElem?_set_ne (fun hh => h2 hh.symm),
      List.getElem?_set_ne (fun hh => h1 hh.symm)]
  have haYi : ((aY.set (npos u i) (.LoopEnd (npos u p))).set (npos u p)
      (.LoopHead (npos u i)))[npos u i]? = some (.LoopEnd (npos u p)) := by
    rw [List.getElem?_set_ne hNPne, List.getElem?_set_self (by omega)]
  have haYp : ((aY.set (npos u i) (.LoopEnd (npos u p))).set (npos u p)
      (.LoopHead (npos u i)))[npos u p]? = some (.LoopHead (npos u i)) := by
    rw [List.getElem?_set_self (by simp [List.length_set]; omega)]
  have haYo : ∀ m, m ≠ npos u i → m ≠ npos u p →
      ((aY.set (npos u i) (.LoopEnd (npos u p))).set (npos u p)
        (.LoopHead (npos u i)))[m]? = aY[m]? := by
    intro m h1 h2
    rw [List.getElem?_set_ne (fun hh => h2 hh.symm),
      List.getElem?_set_ne (fun hh => h1 hh.symm)]
  refine ⟨by simp [List.length_set, hlX], by simp [List.length_set, hlY], hnd',
    fun q hq => ⟨by have := (hstk q (List.mem_cons_of_mem _ hq)).1; omega,
      (hstk q (List.mem_cons_of_mem _ hq)).2⟩,
    fun j hj r hr => ?_⟩
  by_cases hji : j = i
  · subst hji
    obtain rfl : ri = r := Option.some.inj (hri.symm.trans hr)
    right; right
    exact ⟨hE, by omega, p, rp, hpi, hndp, hrp, hrpH, haXi, haXp, haYi, haYp⟩
  · by_cases hjp : j = p
    · subst hjp
      obtain rfl : rp = r := Option.some.inj (hrp.symm.trans hr)
      right; left
      exact ⟨hrpH, hndp, i, ri, by omega, hpi, hri, hE, haXp, haXi, haYp, haYi⟩
    · have hjL : j < u.length := hj
      rcases hPS j hj r hr with ⟨h1, h2, h3, h4⟩ | hb | hb
      · left
        refine ⟨fun hk => ?_, fun hk => by have := h2 hk; omega, ?_, ?_⟩
        · rcases h1 hk with hm | hm
          · rcases List.mem_cons.mp hm with rfl | hm'
            · exact absurd rfl hjp
            · exact Or.inl hm'
          · exact Or.inr (by omega)
        · rw [haXo j hji hjp]; exact h3
        · intro k hk
          rw [haYo _ (slot_ne u hwf hji hiL hjL hr hk)
            (slot_ne u hwf hjp hpL hjL hr hk)]
          exact h4 k hk
      · obtain ⟨ha, hjn, e, re, h1, h2, h3, h4, h5, h6, h7, h8⟩ := hb
        have heL : e < u.length := getElem?_lt h3
        have hei : e ≠ i := by omega
        have hep : e ≠ p := by
          rintro rfl
          obtain rfl : rp = re := Option.some.inj (hrp.symm.trans h3)
          rw [hrpH] at h4
          cases h4
        right; left
        refine ⟨ha, fun hm => hjn (List.mem_cons_of_mem _ hm), e, re, by omega,
          h2, h3, h4, ?_, ?_, ?_, ?_⟩
        · rw [haXo j hji hjp]; exact h5
        · rw [haXo e hei hep]; exact h6
        · rw [haYo _ (npos_ne u hwf hji hjL hiL) (npos_ne u hwf hjp hjL hpL)]
          exact h7
        · rw [haYo _ (npos_ne u hwf hei heL hiL) (npos_ne u hwf hep heL hpL)]
          exact h8
      · obtain ⟨ha, hji', p', rp', h1, h2, h3, h4, h5, h6, h7, h8⟩ := hb
        have hp'L : p' < u.length := getElem?_lt h3
        have hp'i : p' ≠ i := by
          rintro rfl
          obtain rfl : ri = rp' := Option.some.inj (hri.symm.trans h3)
          rw [hE] at h4
          cases h4
        have hp'p : p' ≠ p := by
          rintro rfl
          exact h2 (List.mem_cons_self _ _)
        right; right
        refine ⟨ha, by omega, p', rp', h1,
          fun hm => h2 (List.mem_cons_of_mem _ hm), h3, h4, ?_, ?_, ?_, ?_⟩
        · rw [haXo j hji hjp]; exact h5
        · rw [haXo p' hp'i hp'p]; exact h6
        · rw [haYo _ (npos_ne u hwf hji hjL hiL) (npos_ne u hwf hjp hjL hpL)]
          exact h7
        · rw [haYo _ (npos_ne u hwf hp'i hp'L hiL) (npos_ne u hwf hp'p hp'L hpL)]
          exact h8

/-- When the walk has consumed every unit with an empty stack, every unit
satisfies the final correspondence. -/
theorem bindInv_final (u : List (OpCode × Nat)) (i : Nat) (hi : u.length ≤ i)
    (aX aY : List Instruction) (hinv : BindInv u i [] aX aY) :
    ∀ j, j < u.length → UnitCorr u aX aY j := by
  intro j hj r hr
  obtain ⟨_, _, _, _, hPS⟩ := hinv
  rcases hPS j hj r hr with ⟨h1, h2, h3, h4⟩ | hb | hb
  · refine ⟨fun _ => ⟨h3, h4⟩, fun hk => ?_, fun hk => ?_⟩
    · rcases h1 hk with hm | hm
      · exact absurd hm (List.not_mem_nil _)
      · omega
    · have := h2 hk
      omega
  · obtain ⟨ha, _, e, re, h1, h2, h3, h4, h5, h6, h7, h8⟩ := hb
    refine ⟨?_, ?_, ?_⟩
    · exact fun hcontra => absurd ha hcontra.1
    · exact fun _ => ⟨e, re, getElem?_lt h3, h2, h3, h4, h5, h6, h7, h8⟩
    · intro hk
      rw [ha] at hk
      cases hk
  · obtain ⟨ha, _, p, rp, h1, h2, h3, h4, h5, h6, h7, h8⟩ := hb
    refine ⟨?_, ?_, ?_⟩
    · exact fun hcontra => absurd ha hcontra.2
    · intro hk
      rw [ha] at hk
      cases hk
    · exact fun _ => ⟨p, rp, h1, h3, h4, h5, h6, h7, h8⟩

/-- Simultaneous correctness of the jump-resolution loop over the
compressed and the naive streams: starting from any invariant state, if
both walks succeed then the resulting arrays satisfy the unit
correspondence everywhere. -/
theorem bindCorrAux (u : List (OpCode × Nat)) (hwf : UnitsWF u) :
    ∀ (rest : List (OpCode × Nat)) (i : Nat) (sX : List Nat)
      (aX aY outX outY : List Instruction),
      u.drop i = rest →
      BindInv u i sX aX aY →
      bindGo sX aX i (rest.map unitInstr) = some outX →
      bindGo (sX.map (npos u)) aY (npos u i) (rest.flatMap expandUnit) = some outY →
      outX.length = u.length ∧ outY.length = npos u u.length ∧
      ∀ j, j < u.length → UnitCorr u outX outY j := by
  intro rest
  induction rest with
  | nil =>
    intro i sX aX aY outX outY hdrop hinv hX hY
    have hiL : u.length ≤ i := List.drop_eq_nil_iff.mp hdrop
    cases sX with
    | cons q sX' =>
      rw [show bindGo (q :: sX') aX i ((List.nil).map unitInstr) =
        (if q :: sX' = [] then some aX else none) from rfl] at hX
      rw [if_neg (by simp)] at hX
      exact Option.noConfusion hX
    | nil =>
      rw [show bindGo [] aX i ((List.nil).map unitInstr) = some aX from rfl] at hX
      rw [show bindGo (([] : List Nat).map (npos u)) aY (npos u i)
        ((List.nil).flatMap expandUnit) = some aY from rfl] at hY
      obtain rfl : aX = outX := Option.some.inj hX
      obtain rfl : aY = outY := Option.some.inj hY
      exact ⟨hinv.1, hinv.2.1, bindInv_final u i hiL _ _ hinv⟩
  | cons ri rest' ih =>
    intro i sX aX aY outX outY hdrop hinv hX hY
    have hri : u[i]? = some ri := by
      have h0 := List.getElem?_drop u i 0
      rw [hdrop] at h0
      simpa using h0.symm
    have hdrop' : u.drop (i + 1) = rest' := by
      have h1 : List.drop 1 (List.drop i u) = List.drop (i + 1) u :=
        List.drop_drop 1 i u
      rw [hdrop] at h1
      simpa using h1.symm
    have hiL : i < u.length := getElem?_lt hri
    have hsucc := npos_succ u i ri hri
    have hmem : ri ∈ u := by
      rcases List.getElem?_eq_some.mp hri with ⟨hlt, hget⟩
      exact hget ▸ List.getElem_mem hlt
    obtain ⟨hcnt1, hcnt2⟩ := hwf ri hmem
    rw [List.map_cons] at hX
    rw [List.flatMap_cons] at hY
    by_cases hH : ri.1 = .LoopHead
    · have hc1 : ri.2 = 1 := hcnt2 (by rw [hH]; rfl)
      have hui : unitInstr ri = .LoopHead usizeMax := by simp [unitInstr, hH]
      have hex : expandUnit ri = [Instruction.LoopHead usizeMax] := by
        simp [expandUnit, hc1, hH, OpCode.as_instruction]
      rw [hui, show bindGo sX aX i (.LoopHead usizeMax :: rest'.map unitInstr) =
        bindGo (i :: sX) aX (i + 1) (rest'.map unitInstr) from rfl] at hX
      rw [hex, List.singleton_append,
        show bindGo (sX.map (npos u)) aY (npos u i)
          (.LoopHead usizeMax :: rest'.flatMap expandUnit) =
        bindGo (npos u i :: sX.map (npos u)) aY (npos u i + 1)
          (rest'.flatMap expandUnit) from rfl,
        show npos u i + 1 = npos u (i + 1) by omega] at hY
      exact ih (i + 1) (i :: sX) aX aY outX outY hdrop'
        (bindInv_push u i sX aX aY ri hinv hri hH) hX hY
    · by_cases hE : ri.1 = .LoopEnd
      · have hc1 : ri.2 = 1 := hcnt2 (by rw [hE]; rfl)
        have hui : unitInstr ri = .LoopEnd usizeMax := by simp [unitInstr, hE]
        have hex : expandUnit ri = [Instruction.LoopEnd usizeMax] := by
          simp [expandUnit, hc1, hE, OpCode.as_instruction]
        cases sX with
        | nil =>
          rw [hui, show bindGo [] aX i (.LoopEnd usizeMax :: rest'.map unitInstr) =
            none from rfl] at hX
          exact Option.noConfusion hX
        | cons p sX'' =>
          rw [hui, show bindGo (p :: sX'') aX i
              (.LoopEnd usizeMax :: rest'.map unitInstr) =
            bindGo sX'' ((aX.set i (.LoopEnd p)).set p (.LoopHead i)) (i + 1)
              (rest'.map unitInstr) from rfl] at hX
          rw [hex, List.singleton_append,
            show bindGo ((p :: sX'').map (npos u)) aY (npos u i)
              (.LoopEnd usizeMax :: rest'.flatMap expandUnit) =
            bindGo (sX''.map (npos u))
              ((aY.set (npos u i) (.LoopEnd (npos u p))).set (npos u p)
                (.LoopHead (npos u i))) (npos u i + 1)
              (rest'.flatMap expandUnit) from rfl,
            show npos u i + 1 = npos u (i + 1) by omega] at hY
          exact ih (i + 1) sX'' _ _ outX outY hdrop'
            (bindInv_pop u hwf i p sX'' aX aY ri hinv hri hE) hX hY
      · rw [bindGo_cons_other (unitInstr ri) (unitInstr_not_loop ri hH hE)] at hX
        rw [show expandUnit ri = List.replicate ri.2 ri.1.as_instruction from rfl,
          bindGo_skip ri.1.as_instruction (as_instruction_not_loop ri.1 hH hE),
          show npos u i + ri.2 = npos u (i + 1) by omega] at hY
        exact ih (i + 1) sX aX aY outX outY hdrop'
          (bindInv_skip u i sX aX aY ri hinv hri hH hE) hX hY

/-- Mapping opcodes to their default instructions leaves the bracket
events intact. -/
theorem loopEvents_map_as (ops : List OpCode) :
    loopEvents (ops.map OpCode.as_instruction) = opEvents ops := by
  induction ops with
  | nil => rfl
  | cons c t ih =>
    cases c <;>
      simp_all [loopEvents, opEvents, List.filterMap_cons, OpCode.as_instruction]

/-- Jump resolution of the compressed stream and of the naive stream of
the same opcode list produces streams in unit correspondence. -/
theorem bind_correspondence (ops : List OpCode) (C Nv : List Instruction)
    (hC : bindLoops (optimize ops) = some C)
    (hN : bindLoops (ops.map OpCode.as_instruction) = some Nv) :
    C.length = (units ops).length ∧
    Nv.length = npos (units ops) (units ops).length ∧
    ∀ j, j < (units ops).length → UnitCorr (units ops) C Nv j := by
  have hwf := units_wf ops
  rw [bindLoops, optimize_eq_map_unitInstr] at hC
  rw [bindLoops, map_as_eq_flatMap_expandUnit] at hN
  have hN' : bindGo (List.map (npos (units ops)) []) ((units ops).flatMap expandUnit)
      (npos (units ops) 0) ((units ops).flatMap expandUnit) = some Nv := by
    rw [show List.map (npos (units ops)) [] = [] from rfl, npos_zero]
    exact hN
  refine bindCorrAux (units ops) hwf (units ops) 0 []
    ((units ops).map unitInstr) ((units ops).flatMap expandUnit) C Nv rfl
    ⟨by simp, flatMap_expandUnit_length (units ops), List.nodup_nil,
      fun p hp => absurd hp (List.not_mem_nil _), fun j hj r hr => ?_⟩ hC hN'
  left
  refine ⟨fun _ => Or.inr (Nat.zero_le j), fun _ => Nat.zero_le j, ?_,
    fun k hk => flatMap_expandUnit_getElem (units ops) j r k hr hk⟩
  rw [List.getElem?_map, hr]
  rfl

/-- C7: in every compiled program, a loop-begin at position `pos` whose
resolved target is `e` has at `e` a loop-end whose resolved target is
`pos` — jump resolution is mutual and symmetric. -/
theorem c7_jump_symmetry (code : List Char) (p : Program)
    (hp : Program.parse code = some p) :
    ∀ pos e, p.instructions[pos]? = some (Instruction.LoopHead e) →
      p.instructions[e]? = some (Instruction.LoopEnd pos) := by
  rw [Program.parse] at hp
  by_cases hc : Program.check (code.filterMap OpCode.parse) = true
  case neg =>
    rw [if_neg hc] at hp
    exact Option.noConfusion hp
  rw [if_pos hc] at hp
  rcases hbind : Program.bind (code.filterMap OpCode.parse) with _ | C
  · rw [hbind] at hp
    exact Option.noConfusion hp
  rw [hbind] at hp
  obtain rfl : Program.mk C = p := Option.some.inj hp
  have hNsome : (bindLoops ((code.filterMap OpCode.parse).map
      OpCode.as_instruction)).isSome = true := by
    rw [bindLoops, bindGo_isSome, loopEvents_map_as]
    rw [Program.check, Program.has_balanced_brackets,
      hbbGo_dyck _ 0 le_rfl] at hc
    simpa using hc
  obtain ⟨Nv, hN⟩ := Option.isSome_iff_exists.mp hNsome
  rw [Program.bind] at hbind
  obtain ⟨hlen, _, hcorr⟩ := bind_correspondence _ C Nv hbind hN
  intro pos e hpos
  set u := units (code.filterMap OpCode.parse) with hu
  have hposL : pos < u.length := by
    have := getElem?_lt hpos
    simp only [Program.mk.injEq] at this ⊢
    omega
  obtain ⟨r, hr⟩ : ∃ r, u[pos]? = some r := by
    rcases hx : u[pos]? with _ | r
    · rw [List.getElem?_eq_none_iff] at hx; omega
    · exact ⟨r, rfl⟩
  have hcp := hcorr pos hposL r hr
  by_cases hH : r.1 = .LoopHead
  · obtain ⟨e', re, _, _, _, _, hCj, hCe, _, _⟩ := hcp.2.1 hH
    obtain rfl : e' = e := by
      have := Option.some.inj (hCj.symm.trans hpos)
      exact Instruction.LoopHead.inj this
    exact hCe
  · by_cases hEk : r.1 = .LoopEnd
    · obtain ⟨p', rp, _, _, _, hCj, _, _, _⟩ := hcp.2.2 hEk
      have := Option.some.inj (hCj.symm.trans hpos)
      exact Instruction.noConfusion this
    · have hCj := (hcp.1 ⟨hH, hEk⟩).1
      have := Option.some.inj (hCj.symm.trans hpos)
      exact absurd this ((unitInstr_not_loop r hH hEk e).1)

/-- C7 witness: the compiled form of "[.[-]]" with its two mutually
resolved bracket pairs, checked at the outer pair. -/
theorem c7_jump_symmetry_witness :
    Program.parse ['[', '.', '[', '-', ']', ']'] =
      some ⟨[.LoopHead 5, .PutChar, .LoopHead 4, .DecrementValue 1,
        .LoopEnd 2, .LoopEnd 0]⟩ ∧
    ([.LoopHead 5, .PutChar, .LoopHead 4, .DecrementValue 1,
        .LoopEnd 2, .LoopEnd 0] : List Instruction)[5]? =
      some (.LoopEnd 0) := by
  constructor
  · decide
  · exact c7_jump_symmetry ['[', '.', '[', '-', ']', ']'] _ (by decide) 0 5 (by decide)

/-- One successful iteration as a step sequence. -/
theorem stepsN_one (prog : List Instruction) (cfg cfg' : Config)
    (ins : Instruction) (h0 : 0 ≤ cfg.ip) (hins : prog[cfg.ip.toNat]? = some ins)
    (hstep : stepInstr ins cfg = .next cfg') :
    stepsN prog 1 cfg = some cfg' := by
  have hlt : cfg.ip.toNat < prog.length := getElem?_lt hins
  rw [stepsN, dif_pos ⟨h0, by omega⟩]
  have hgetv : prog.get ⟨cfg.ip.toNat, hlt⟩ = ins := by
    have := (List.getElem?_eq_some.mp hins).2
    simpa [List.get_eq_getElem] using this
  simp only [List.get_eq_getElem] at hgetv ⊢
  rw [hgetv, hstep]
  rfl

/-- A single faulting iteration of the interpreter loop. -/
theorem runFuel_fault_one (prog : List Instruction) (cfg : Config)
    (ins : Instruction) (fa : Fault) (h0 : 0 ≤ cfg.ip)
    (hins : prog[cfg.ip.toNat]? = some ins)
    (hstep : stepInstr ins cfg = .fault fa) :
    runFuel prog 1 cfg = .fault fa := by
  have hlt : cfg.ip.toNat < prog.length := getElem?_lt hins
  rw [runFuel, dif_pos ⟨h0, by omega⟩]
  have hgetv : prog.get ⟨cfg.ip.toNat, hlt⟩ = ins := by
    have := (List.getElem?_eq_some.mp hins).2
    simpa [List.get_eq_getElem] using this
  simp only [List.get_eq_getElem] at hgetv ⊢
  rw [hgetv, hstep]

/-- Chaining step sequences. -/
theorem stepsN_trans (prog : List Instruction) :
    ∀ (a : Nat) (cfg c1 : Config), stepsN prog a cfg = some c1 →
      ∀ b, stepsN prog (a + b) cfg = stepsN prog b c1 := by
  intro a
  induction a with
  | zero =>
    intro cfg c1 h b
    obtain rfl : cfg = c1 := Option.some.inj h
    rw [Nat.zero_add]
  | succ q ih =>
    intro cfg c1 h b
    rw [stepsN] at h
    rw [show q + 1 + b = (q + b) + 1 by omega, stepsN]
    split at h
    case isTrue hcond =>
      rw [dif_pos hcond]
      split at h
      case h_1 c heq =>
        try rw [heq]
        exact ih c c1 h b
      case h_2 => exact Option.noConfusion h
    case isFalse => exact Option.noConfusion h

/-- Peeling a step sequence off a fuelled run. -/
theorem stepsN_runFuel_shift (prog : List Instruction) :
    ∀ (k : Nat) (cfg cfg' : Config), stepsN prog k cfg = some cfg' →
      ∀ f, runFuel prog (f + k) cfg = runFuel prog f cfg' := by
  intro k
  induction k with
  | zero =>
    intro cfg cfg' h f
    obtain rfl : cfg = cfg' := Option.some.inj h
    rfl
  | succ q ih =>
    intro cfg cfg' h f
    rw [stepsN] at h
    rw [show f + (q + 1) = (f + q) + 1 by omega, runFuel]
    split at h
    case isTrue hcond =>
      rw [dif_pos hcond]
      split at h
      case h_1 c heq =>
        try rw [heq]
        exact ih c cfg' h f
      case h_2 => exact Option.noConfusion h
    case isFalse => exact Option.noConfusion h

/-- A run that reaches done needs at least as much fuel as any successful
step sequence from the same state. -/
theorem stepsN_le_of_done (prog : List Instruction) :
    ∀ (k : Nat) (cfg cfg' : Config) (f : Nat) (d : Config),
      stepsN prog k cfg = some cfg' → runFuel prog f cfg = .done d → k ≤ f := by
  intro k
  induction k with
  | zero => intro _ _ _ _ _ _; omega
  | succ q ih =>
    intro cfg cfg' f d hs hr
    rw [stepsN] at hs
    split at hs
    case isTrue hcond =>
      cases f with
      | zero => rw [runFuel] at hr; exact RunResult.noConfusion hr
      | succ g =>
        rw [runFuel, dif_pos hcond] at hr
        split at hs
        case h_1 c heq =>
          try rw [heq] at hr
          have := ih c cfg' g d hs hr
          omega
        case h_2 => exact Option.noConfusion hs
    case isFalse => exact Option.noConfusion hs

/-- A state that can fault never reaches done, at any fuel. -/
theorem fault_not_done (prog : List Instruction) :
    ∀ (f : Nat) (cfg : Config) (fa : Fault), runFuel prog f cfg = .fault fa →
      ∀ (g : Nat) (d : Config), runFuel prog g cfg ≠ .done d := by
  intro f
  induction f with
  | zero => intro cfg fa h; exact absurd h (by rw [runFuel]; exact fun hh => RunResult.noConfusion hh)
  | succ q ih =>
    intro cfg fa h g d hg
    rw [runFuel] at h
    split at h
    case isTrue hcond =>
      cases g with
      | zero => rw [runFuel] at hg; exact RunResult.noConfusion hg
      | succ g' =>
        rw [runFuel, dif_pos hcond] at hg
        split at h
        case h_1 c heq =>
          try rw [heq] at hg
          exact ih c fa h g' d hg
        case h_2 c heq =>
          try rw [heq] at hg
          exact RunResult.noConfusion hg
    case isFalse => exact RunResult.noConfusion h

/-- A run of unit cell-increments advances the instruction pointer by the
run length and adds the run length to the cell, mod 256. -/
theorem incValue_chain (prog : List Instruction) :
    ∀ (n : Nat) (cfg : Config) (base v : Nat),
      cfg.ip = (base : Int) →
      (∀ k, k < n + 1 → prog[base + k]? = some (.IncrementValue 1)) →
      cfg.tape[cfg.dp]? = some v →
      stepsN prog (n + 1) cfg =
        some { cfg with
                 ip := ((base + (n + 1) : Nat) : Int),
                 tape := cfg.tape.set cfg.dp ((v + (n + 1)) % 256) } := by
  intro n
  induction n with
  | zero =>
    intro cfg base v hip hins hv
    have hstep : stepInstr (.IncrementValue 1) cfg =
        .next { cfg with
                  ip := ((base + 1 : Nat) : Int),
                  tape := cfg.tape.set cfg.dp ((v + 1) % 256) } := by
      simp only [stepInstr, hv]
      rw [show (v + 1) % 2 ^ 64 % 256 = (v + 1) % 256 from natWrapTruncate _]
      rw [hip]
      push_cast
      rfl
    exact stepsN_one prog cfg _ (.IncrementValue 1) (by rw [hip]; exact Int.ofNat_nonneg base)
      (by rw [hip, Int.toNat_ofNat]; simpa using hins 0 (by omega)) hstep
  | succ m ih =>
    intro cfg base v hip hins hv
    have hdp : cfg.dp < cfg.tape.length := getElem?_lt hv
    have hstep : stepInstr (.IncrementValue 1) cfg =
        .next { cfg with
                  ip := ((base + 1 : Nat) : Int),
                  tape := cfg.tape.set cfg.dp ((v + 1) % 256) } := by
      simp only [stepInstr, hv]
      rw [show (v + 1) % 2 ^ 64 % 256 = (v + 1) % 256 from natWrapTruncate _]
      rw [hip]
      push_cast
      rfl
    have hone : stepsN prog 1 cfg =
        some { cfg with
                 ip := ((base + 1 : Nat) : Int),
                 tape := cfg.tape.set cfg.dp ((v + 1) % 256) } :=
      stepsN_one prog cfg _ (.IncrementValue 1) (by rw [hip]; exact Int.ofNat_nonneg base)
        (by rw [hip, Int.toNat_ofNat]; simpa using hins 0 (by omega)) hstep
    rw [show m + 1 + 1 = 1 + (m + 1) by omega, stepsN_trans prog 1 cfg _ hone (m + 1)]
    have hrec := ih
      { cfg with
          ip := ((base + 1 : Nat) : Int),
          tape := cfg.tape.set cfg.dp ((v + 1) % 256) } (base + 1) ((v + 1) % 256)
      rfl (fun k hk => by rw [show base + 1 + k = base + (k + 1) by omega]; exact hins (k + 1) (by omega))
      (by simpa using List.getElem?_set_self (by simpa using hdp))
    rw [hrec]
    have harith : ((v + 1) % 256 + (m + 1)) % 256 = (v + (m + 1 + 1)) % 256 := by
      omega
    have hip2 : base + 1 + (m + 1) = base + (m + 1 + 1) := by omega
    simp [List.set_set, harith, hip2]
    refine ⟨by omega, ?_⟩
    rw [show v + (m + 1 + 1) = v + (1 + (m + 1)) by omega]

/-- A run of unit cell-decrements advances the instruction pointer by the
run length and subtracts the run length from the cell, mod 256. -/
theorem decValue_chain (prog : List Instruction) :
    ∀ (n : Nat) (cfg : Config) (base v : Nat),
      cfg.ip = (base : Int) →
      (∀ k, k < n + 1 → prog[base + k]? = some (.DecrementValue 1)) →
      cfg.tape[cfg.dp]? = some v →
      stepsN prog (n + 1) cfg =
        some { cfg with
                 ip := ((base + (n + 1) : Nat) : Int),
                 tape := cfg.tape.set cfg.dp
                   ((((v : Int) - (n + 1)) % 256).toNat) } := by
  intro n
  induction n with
  | zero =>
    intro cfg base v hip hins hv
    have hstep : stepInstr (.DecrementValue 1) cfg =
        .next { cfg with
                  ip := ((base + 1 : Nat) : Int),
                  tape := cfg.tape.set cfg.dp ((((v : Int) - 1) % 256).toNat) } := by
      simp only [stepInstr, hv, Nat.cast_one, intWrapTruncate]
      rw [hip]
      push_cast
      rfl
    exact stepsN_one prog cfg _ (.DecrementValue 1) (by rw [hip]; exact Int.ofNat_nonneg base)
      (by rw [hip, Int.toNat_ofNat]; simpa using hins 0 (by omega)) hstep
  | succ m ih =>
    intro cfg base v hip hins hv
    have hdp : cfg.dp < cfg.tape.length := getElem?_lt hv
    have hstep : stepInstr (.DecrementValue 1) cfg =
        .next { cfg with
                  ip := ((base + 1 : Nat) : Int),
                  tape := cfg.tape.set cfg.dp ((((v : Int) - 1) % 256).toNat) } := by
      simp only [stepInstr, hv, Nat.cast_one, intWrapTruncate]
      rw [hip]
      push_cast
      rfl
    have hone : stepsN prog 1 cfg =
        some { cfg with
                 ip := ((base + 1 : Nat) : Int),
                 tape := cfg.tape.set cfg.dp ((((v : Int) - 1) % 256).toNat) } :=
      stepsN_one prog cfg _ (.DecrementValue 1) (by rw [hip]; exact Int.ofNat_nonneg base)
        (by rw [hip, Int.toNat_ofNat]; simpa using hins 0 (by omega)) hstep
    rw [show m + 1 + 1 = 1 + (m + 1) by omega, stepsN_trans prog 1 cfg _ hone (m + 1)]
    have hrec := ih
      { cfg with
          ip := ((base + 1 : Nat) : Int),
          tape := cfg.tape.set cfg.dp ((((v : Int) - 1) % 256).toNat) } (base + 1)
      ((((v : Int) - 1) % 256).toNat)
      rfl (fun k hk => by rw [show base + 1 + k = base + (k + 1) by omega]; exact hins (k + 1) (by omega))
      (by simpa using List.getElem?_set_self (by simpa using hdp))
    rw [hrec]
    have hnn : (0 : Int) ≤ ((v : Int) - 1) % 256 := Int.emod_nonneg _ (by norm_num)
    have hip2 : base + 1 + (m + 1) = base + (m + 1 + 1) := by omega
    simp [List.set_set, hip2, Int.toNat_of_nonneg hnn]
    refine ⟨by omega, ?_⟩
    rw [show (((v : Int) - 1) % 256 - ((m : Int) + 1)) % 256 =
      ((v : Int) - ((m : Int) + 1 + 1)) % 256 by omega]

/-- A run of unit pointer-forwards that stays in bounds advances both the
instruction pointer and the data pointer by the run length. -/
theorem incPointer_chain (prog : List Instruction) :
    ∀ (n : Nat) (cfg : Config) (base : Nat),
      cfg.ip = (base : Int) →
      (∀ k, k < n + 1 → prog[base + k]? = some (.IncrementPointer 1)) →
      cfg.dp + (n + 1) < cfg.tape.length →
      stepsN prog (n + 1) cfg =
        some { cfg with
                 ip := ((base + (n + 1) : Nat) : Int),
                 dp := cfg.dp + (n + 1) } := by
  intro n
  induction n with
  | zero =>
    intro cfg base hip hins hlen
    have hstep : stepInstr (.IncrementPointer 1) cfg =
        .next { cfg with ip := ((base + 1 : Nat) : Int), dp := cfg.dp + 1 } := by
      simp only [stepInstr]
      rw [if_neg (by omega)]
      rw [hip]
      push_cast
      rfl
    exact stepsN_one prog cfg _ (.IncrementPointer 1) (by rw [hip]; exact Int.ofNat_nonneg base)
      (by rw [hip, Int.toNat_ofNat]; simpa using hins 0 (by omega)) hstep
  | succ m ih =>
    intro cfg base hip hins hlen
    have hstep : stepInstr (.IncrementPointer 1) cfg =
        .next { cfg with ip := ((base + 1 : Nat) : Int), dp := cfg.dp + 1 } := by
      simp only [stepInstr]
      rw [if_neg (by omega)]
      rw [hip]
      push_cast
      rfl
    have hone : stepsN prog 1 cfg =
        some { cfg with ip := ((base + 1 : Nat) : Int), dp := cfg.dp + 1 } :=
      stepsN_one prog cfg _ (.IncrementPointer 1) (by rw [hip]; exact Int.ofNat_nonneg base)
        (by rw [hip, Int.toNat_ofNat]; simpa using hins 0 (by omega)) hstep
    rw [show m + 1 + 1 = 1 + (m + 1) by omega, stepsN_trans prog 1 cfg _ hone (m + 1)]
    have hrec := ih
      { cfg with ip := ((base + 1 : Nat) : Int), dp := cfg.dp + 1 } (base + 1)
      rfl (fun k hk => by rw [show base + 1 + k = base + (k + 1) by omega]; exact hins (k + 1) (by omega))
      (by simpa using by omega)
    rw [hrec]
    simp
    omega

/-- A run of unit pointer-forwards that would leave the tape faults with a
pointer overflow. -/
theorem incPointer_fault (prog : List Instruction) :
    ∀ (n : Nat) (cfg : Config) (base : Nat),
      cfg.ip = (base : Int) →
      (∀ k, k < n + 1 → prog[base + k]? = some (.IncrementPointer 1)) →
      cfg.tape.length ≤ cfg.dp + (n + 1) →
      ∃ f, runFuel prog f cfg = .fault .pointerOverflow := by
  intro n
  induction n with
  | zero =>
    intro cfg base hip hins hlen
    refine ⟨1, runFuel_fault_one prog cfg (.IncrementPointer 1) _
      (by rw [hip]; exact Int.ofNat_nonneg base)
      (by rw [hip, Int.toNat_ofNat]; simpa using hins 0 (by omega)) ?_⟩
    simp only [stepInstr]
    rw [if_pos (by omega)]
  | succ m ih =>
    intro cfg base hip hins hlen
    by_cases hfirst : cfg.tape.length ≤ cfg.dp + 1
    · refine ⟨1, runFuel_fault_one prog cfg (.IncrementPointer 1) _
        (by rw [hip]; exact Int.ofNat_nonneg base)
        (by rw [hip, Int.toNat_ofNat]; simpa using hins 0 (by omega)) ?_⟩
      simp only [stepInstr]
      rw [if_pos (by omega)]
    · have hstep : stepInstr (.IncrementPointer 1) cfg =
          .next { cfg with ip := ((base + 1 : Nat) : Int), dp := cfg.dp + 1 } := by
        simp only [stepInstr]
        rw [if_neg (by omega)]
        rw [hip]
        push_cast
        rfl
      have hone : stepsN prog 1 cfg =
          some { cfg with ip := ((base + 1 : Nat) : Int), dp := cfg.dp + 1 } :=
        stepsN_one prog cfg _ (.IncrementPointer 1) (by rw [hip]; exact Int.ofNat_nonneg base)
          (by rw [hip, Int.toNat_ofNat]; simpa using hins 0 (by omega)) hstep
      obtain ⟨f, hf⟩ := ih
        { cfg with ip := ((base + 1 : Nat) : Int), dp := cfg.dp + 1 } (base + 1)
        rfl (fun k hk => by rw [show base + 1 + k = base + (k + 1) by omega]; exact hins (k + 1) (by omega))
        (by simpa using by omega)
      exact ⟨f + 1, by rw [stepsN_runFuel_shift prog 1 cfg _ hone f]; exact hf⟩

/-- A run of unit pointer-backwards that stays at or above zero moves the
data pointer back by the run length. -/
theorem decPointer_chain (prog : List Instruction) :
    ∀ (n : Nat) (cfg : Config) (base : Nat),
      cfg.ip = (base : Int) →
      (∀ k, k < n + 1 → prog[base + k]? = some (.DecrementPointer 1)) →
      n + 1 ≤ cfg.dp →
      stepsN prog (n + 1) cfg =
        some { cfg with
                 ip := ((base + (n + 1) : Nat) : Int),
                 dp := cfg.dp - (n + 1) } := by
  intro n
  induction n with
  | zero =>
    intro cfg base hip hins hge
    have hstep : stepInstr (.DecrementPointer 1) cfg =
        .next { cfg with ip := ((base + 1 : Nat) : Int), dp := cfg.dp - 1 } := by
      simp only [stepInstr]
      rw [if_neg (by omega), show ((cfg.dp : Int) - ((1 : Nat) : Int)).toNat = cfg.dp - 1 by omega]
      rw [hip]
      push_cast
      rfl
    exact stepsN_one prog cfg _ (.DecrementPointer 1) (by rw [hip]; exact Int.ofNat_nonneg base)
      (by rw [hip, Int.toNat_ofNat]; simpa using hins 0 (by omega)) hstep
  | succ m ih =>
    intro cfg base hip hins hge
    have hstep : stepInstr (.DecrementPointer 1) cfg =
        .next { cfg with ip := ((base + 1 : Nat) : Int), dp := cfg.dp - 1 } := by
      simp only [stepInstr]
      rw [if_neg (by omega), show ((cfg.dp : Int) - ((1 : Nat) : Int)).toNat = cfg.dp - 1 by omega]
      rw [hip]
      push_cast
      rfl
    have hone : stepsN prog 1 cfg =
        some { cfg with ip := ((base + 1 : Nat) : Int), dp := cfg.dp - 1 } :=
      stepsN_one prog cfg _ (.DecrementPointer 1) (by rw [hip]; exact Int.ofNat_nonneg base)
        (by rw [hip, Int.toNat_ofNat]; simpa using hins 0 (by omega)) hstep
    rw [show m + 1 + 1 = 1 + (m + 1) by omega, stepsN_trans prog 1 cfg _ hone (m + 1)]
    have hrec := ih
      { cfg with ip := ((base + 1 : Nat) : Int), dp := cfg.dp - 1 } (base + 1)
      rfl (fun k hk => by rw [show base + 1 + k = base + (k + 1) by omega]; exact hins (k + 1) (by omega))
      (by simpa using by omega)
    rw [hrec]
    simp
    omega

/-- A run of unit pointer-backwards that would go below zero faults with a
pointer underflow. -/
theorem decPointer_fault (prog : List Instruction) :
    ∀ (n : Nat) (cfg : Config) (base : Nat),
      cfg.ip = (base : Int) →
      (∀ k, k < n + 1 → prog[base + k]? = some (.DecrementPointer 1)) →
      cfg.dp < n + 1 →
      ∃ f, runFuel prog f cfg = .fault .pointerUnderflow := by
  intro n
  induction n with
  | zero =>
    intro cfg base hip hins hlt
    refine ⟨1, runFuel_fault_one prog cfg (.DecrementPointer 1) _
      (by rw [hip]; exact Int.ofNat_nonneg base)
      (by rw [hip, Int.toNat_ofNat]; simpa using hins 0 (by omega)) ?_⟩
    simp only [stepInstr]
    rw [if_pos (by omega)]
  | succ m ih =>
    intro cfg base hip hins hlt
    by_cases hzero : cfg.dp = 0
    · refine ⟨1, runFuel_fault_one prog cfg (.DecrementPointer 1) _
        (by rw [hip]; exact Int.ofNat_nonneg base)
        (by rw [hip, Int.toNat_ofNat]; simpa using hins 0 (by omega)) ?_⟩
      simp only [stepInstr]
      rw [if_pos (by omega)]
    · have hstep : stepInstr (.DecrementPointer 1) cfg =
          .next { cfg with ip := ((base + 1 : Nat) : Int), dp := cfg.dp - 1 } := by
        simp only [stepInstr]
        rw [if_neg (by omega), show ((cfg.dp : Int) - ((1 : Nat) : Int)).toNat = cfg.dp - 1 by omega]
        rw [hip]
        push_cast
        rfl
      have hone : stepsN prog 1 cfg =
          some { cfg with ip := ((base + 1 : Nat) : Int), dp := cfg.dp - 1 } :=
        stepsN_one prog cfg _ (.DecrementPointer 1) (by rw [hip]; exact Int.ofNat_nonneg base)
          (by rw [hip, Int.toNat_ofNat]; simpa using hins 0 (by omega)) hstep
      obtain ⟨f, hf⟩ := ih
        { cfg with ip := ((base + 1 : Nat) : Int), dp := cfg.dp - 1 } (base + 1)
        rfl (fun k hk => by rw [show base + 1 + k = base + (k + 1) by omega]; exact hins (k + 1) (by omega))
        (by simpa using by omega)
      exact ⟨f + 1, by rw [stepsN_runFuel_shift prog 1 cfg _ hone f]; exact hf⟩

/-- Fetching through a known instruction pointer value. -/
theorem fetch_at (prog : List Instruction) (cfg : Config) (i : Nat)
    (ins : Instruction) (hip : cfg.ip = (i : Int)) (h : prog[i]? = some ins) :
    prog[cfg.ip.toNat]? = some ins := by
  rw [hip, Int.toNat_ofNat]
  exact h

/-- The instruction pointer at a numeral is nonnegative. -/
theorem ip_nonneg (cfg : Config) (i : Nat) (hip : cfg.ip = (i : Int)) :
    0 ≤ cfg.ip := by
  rw [hip]
  exact Int.ofNat_nonneg i

/-- Macro step of the simulation: from related states at unit `i`, either
the compressed stream makes one step and the naive stream makes at least
one step into related states again, or both streams fault. -/
theorem macroStep (u : List (OpCode × Nat)) (hwf : UnitsWF u)
    (C Nv : List Instruction)
    (hcorr : ∀ j, j < u.length → UnitCorr u C Nv j)
    (i : Nat) (hi : i < u.length) (cfgC cfgN : Config)
    (hR : SimRel u i cfgC cfgN) :
    (∃ (cfgC' cfgN' : Config) (kN i' : Nat), 1 ≤ kN ∧
      stepsN C 1 cfgC = some cfgC' ∧ stepsN Nv kN cfgN = some cfgN' ∧
      SimRel u i' cfgC' cfgN') ∨
    ((∃ f fa, runFuel C f cfgC = .fault fa) ∧
     (∃ f fa, runFuel Nv f cfgN = .fault fa)) := by
  obtain ⟨hle, hipC, hipN, hdp, htape, hin, hout⟩ := hR
  obtain ⟨r, hr⟩ : ∃ r, u[i]? = some r := by
    rcases hx : u[i]? with _ | r
    · rw [List.getElem?_eq_none_iff] at hx; omega
    · exact ⟨r, rfl⟩
  have hmem : r ∈ u := by
    rcases List.getElem?_eq_some.mp hr with ⟨hlt, hget⟩
    exact hget ▸ List.getElem_mem hlt
  obtain ⟨hc1, hcnt⟩ := hwf r hmem
  have hcu := hcorr i hi r hr
  have hsucc := npos_succ u i r hr
  have htdE : cfgC.tape[cfgC.dp]? = cfgN.tape[cfgN.dp]? := by rw [htape, hdp]
  obtain ⟨n, hn⟩ : ∃ n, r.2 = n + 1 := ⟨r.2 - 1, by omega⟩
  cases hk : r.1 with
  | IncrementPointer =>
    obtain ⟨hCins, hNins⟩ := hcu.1 (by simp [hk])
    rw [show unitInstr r = .IncrementPointer r.2 by simp [unitInstr, hk]] at hCins
    have hNins' : ∀ k, k < n + 1 → Nv[npos u i + k]? = some (.IncrementPointer 1) := by
      intro k hkk
      have := hNins k (by omega)
      rwa [show r.1.as_instruction = .IncrementPointer 1 by simp [hk, OpCode.as_instruction]] at this
    by_cases hfits : cfgN.dp + r.2 < cfgN.tape.length
    · left
      have hstepC : stepInstr (.IncrementPointer r.2) cfgC =
          .next { cfgC with ip := ((i + 1 : Nat) : Int), dp := cfgC.dp + r.2 } := by
        simp only [stepInstr]
        rw [if_neg (by rw [htape, hdp]; omega)]
        rw [hipC]
        push_cast
        rfl
      have hchain := incPointer_chain Nv n cfgN (npos u i) hipN hNins' (by omega)
      refine ⟨_, _, n + 1, i + 1, by omega,
        stepsN_one C cfgC _ _ (ip_nonneg cfgC i hipC) (fetch_at C cfgC i _ hipC hCins) hstepC,
        by rw [← hn] at hchain ⊢; exact hchain, ?_⟩
      refine ⟨by omega, by simp, by simp [hsucc, hn], by simp [hdp], by simp [htape],
        by simp [hin], by simp [hout]⟩
    · right
      constructor
      · refine ⟨1, .pointerOverflow, runFuel_fault_one C cfgC (.IncrementPointer r.2) _
          (ip_nonneg cfgC i hipC) (fetch_at C cfgC i _ hipC hCins) ?_⟩
        simp only [stepInstr]
        rw [if_pos (by rw [htape, hdp]; omega)]
      · obtain ⟨f, hf⟩ := incPointer_fault Nv n cfgN (npos u i) hipN hNins' (by omega)
        exact ⟨f, .pointerOverflow, hf⟩
  | DecrementPointer =>
    obtain ⟨hCins, hNins⟩ := hcu.1 (by simp [hk])
    rw [show unitInstr r = .DecrementPointer r.2 by simp [unitInstr, hk]] at hCins
    have hNins' : ∀ k, k < n + 1 → Nv[npos u i + k]? = some (.DecrementPointer 1) := by
      intro k hkk
      have := hNins k (by omega)
      rwa [show r.1.as_instruction = .DecrementPointer 1 by simp [hk, OpCode.as_instruction]] at this
    by_cases hfits : r.2 ≤ cfgN.dp
    · left
      have hstepC : stepInstr (.DecrementPointer r.2) cfgC =
          .next { cfgC with ip := ((i + 1 : Nat) : Int), dp := cfgC.dp - r.2 } := by
        simp only [stepInstr]
        rw [if_neg (by rw [hdp]; omega),
          show ((cfgC.dp : Int) - (r.2 : Int)).toNat = cfgC.dp - r.2 by rw [hdp]; omega]
        rw [hipC]
        push_cast
        rfl
      have hchain := decPointer_chain Nv n cfgN (npos u i) hipN hNins' (by omega)
      refine ⟨_, _, n + 1, i + 1, by omega,
        stepsN_one C cfgC _ _ (ip_nonneg cfgC i hipC) (fetch_at C cfgC i _ hipC hCins) hstepC,
        by rw [← hn] at hchain ⊢; exact hchain, ?_⟩
      refine ⟨by omega, by simp, by simp [hsucc, hn], by simp [hdp], by simp [htape],
        by simp [hin], by simp [hout]⟩
    · right
      constructor
      · refine ⟨1, .pointerUnderflow, runFuel_fault_one C cfgC (.DecrementPointer r.2) _
          (ip_nonneg cfgC i hipC) (fetch_at C cfgC i _ hipC hCins) ?_⟩
        simp only [stepInstr]
        rw [if_pos (by rw [hdp]; omega)]
      · obtain ⟨f, hf⟩ := decPointer_fault Nv n cfgN (npos u i) hipN hNins' (by omega)
        exact ⟨f, .pointerUnderflow, hf⟩
  | IncrementValue =>
    obtain ⟨hCins, hNins⟩ := hcu.1 (by simp [hk])
    rw [show unitInstr r = .IncrementValue r.2 by simp [unitInstr, hk]] at hCins
    have hNins' : ∀ k, k < n + 1 → Nv[npos u i + k]? = some (.IncrementValue 1) := by
      intro k hkk
      have := hNins k (by omega)
      rwa [show r.1.as_instruction = .IncrementValue 1 by simp [hk, OpCode.as_instruction]] at this
    rcases hv : cfgN.tape[cfgN.dp]? with _ | v
    · right
      constructor
      · refine ⟨1, .indexOutOfBounds, runFuel_fault_one C cfgC (.IncrementValue r.2) _
          (ip_nonneg cfgC i hipC) (fetch_at C cfgC i _ hipC hCins) ?_⟩
        simp only [stepInstr, htdE, hv]
      · refine ⟨1, .indexOutOfBounds, runFuel_fault_one Nv cfgN (.IncrementValue 1) _
          (ip_nonneg cfgN (npos u i) hipN)
          (fetch_at Nv cfgN (npos u i) _ hipN (by simpa using hNins' 0 (by omega))) ?_⟩
        simp only [stepInstr, hv]
    · left
      have hstepC : stepInstr (.IncrementValue r.2) cfgC =
          .next { cfgC with
            ip := ((i + 1 : Nat) : Int),
            tape := cfgC.tape.set cfgC.dp ((v + r.2) % 256) } := by
        simp only [stepInstr, htdE, hv]
        rw [show (v + r.2) % 2 ^ 64 % 256 = (v + r.2) % 256 from natWrapTruncate _]
        rw [hipC]
        push_cast
        rfl
      have hchain := incValue_chain Nv n cfgN (npos u i) v hipN hNins' hv
      refine ⟨_, _, n + 1, i + 1, by omega,
        stepsN_one C cfgC _ _ (ip_nonneg cfgC i hipC) (fetch_at C cfgC i _ hipC hCins) hstepC,
        by rw [← hn] at hchain ⊢; exact hchain, ?_⟩
      refine ⟨by omega, by simp, by simp [hsucc, hn], by simp [hdp], ?_,
        by simp [hin], by simp [hout]⟩
      simp [htape, hdp, hn]
  | DecrementValue =>
    obtain ⟨hCins, hNins⟩ := hcu.1 (by simp [hk])
    rw [show unitInstr r = .DecrementValue r.2 by simp [unitInstr, hk]] at hCins
    have hNins' : ∀ k, k < n + 1 → Nv[npos u i + k]? = some (.DecrementValue 1) := by
      intro k hkk
      have := hNins k (by omega)
      rwa [show r.1.as_instruction = .DecrementValue 1 by simp [hk, OpCode.as_instruction]] at this
    rcases hv : cfgN.tape[cfgN.dp]? with _ | v
    · right
      constructor
      · refine ⟨1, .indexOutOfBounds, runFuel_fault_one C cfgC (.DecrementValue r.2) _
          (ip_nonneg cfgC i hipC) (fetch_at C cfgC i _ hipC hCins) ?_⟩
        simp only [stepInstr, htdE, hv]
      · refine ⟨1, .indexOutOfBounds, runFuel_fault_one Nv cfgN (.DecrementValue 1) _
          (ip_nonneg cfgN (npos u i) hipN)
          (fetch_at Nv cfgN (npos u i) _ hipN (by simpa using hNins' 0 (by omega))) ?_⟩
        simp only [stepInstr, hv]
    · left
      have hstepC : stepInstr (.DecrementValue r.2) cfgC =
          .next { cfgC with
            ip := ((i + 1 : Nat) : Int),
            tape := cfgC.tape.set cfgC.dp ((((v : Int) - r.2) % 256).toNat) } := by
        simp only [stepInstr, htdE, hv, intWrapTruncate]
        rw [hipC]
        push_cast
        rfl
      have hchain := decValue_chain Nv n cfgN (npos u i) v hipN hNins' hv
      refine ⟨_, _, n + 1, i + 1, by omega,
        stepsN_one C cfgC _ _ (ip_nonneg cfgC i hipC) (fetch_at C cfgC i _ hipC hCins) hstepC,
        by rw [← hn] at hchain ⊢; exact hchain, ?_⟩
      refine ⟨by omega, by simp, by simp [hsucc, hn], by simp [hdp], ?_,
        by simp [hin], by simp [hout]⟩
      simp [htape, hdp, hn]
  | PutChar =>
    have hc1' : r.2 = 1 := hcnt (by rw [hk]; rfl)
    obtain ⟨hCins, hNins⟩ := hcu.1 (by simp [hk])
    rw [show unitInstr r = .PutChar by simp [unitInstr, hk]] at hCins
    have hN0 : Nv[npos u i]? = some .PutChar := by
      have := hNins 0 (by omega)
      rwa [show r.1.as_instruction = .PutChar by simp [hk, OpCode.as_instruction],
        Nat.add_zero] at this
    rcases hv : cfgN.tape[cfgN.dp]? with _ | v
    · right
      refine ⟨⟨1, .indexOutOfBounds, runFuel_fault_one C cfgC .PutChar _
          (ip_nonneg cfgC i hipC) (fetch_at C cfgC i _ hipC hCins)
          (by simp only [stepInstr, htdE, hv])⟩,
        ⟨1, .indexOutOfBounds, runFuel_fault_one Nv cfgN .PutChar _
          (ip_nonneg cfgN (npos u i) hipN) (fetch_at Nv cfgN (npos u i) _ hipN hN0)
          (by simp only [stepInstr, hv])⟩⟩
    · left
      have hstepC : stepInstr .PutChar cfgC =
          .next { cfgC with
            ip := ((i + 1 : Nat) : Int),
            output := cfgC.output ++ utf8Encode v } := by
        simp only [stepInstr, htdE, hv]
        rw [hipC]
        push_cast
        rfl
      have hstepN : stepInstr .PutChar cfgN =
          .next { cfgN with
            ip := ((npos u i + 1 : Nat) : Int),
            output := cfgN.output ++ utf8Encode v } := by
        simp only [stepInstr, hv]
        rw [hipN]
        push_cast
        rfl
      refine ⟨_, _, 1, i + 1, le_refl 1,
        stepsN_one C cfgC _ _ (ip_nonneg cfgC i hipC) (fetch_at C cfgC i _ hipC hCins) hstepC,
        stepsN_one Nv cfgN _ _ (ip_nonneg cfgN (npos u i) hipN)
          (fetch_at Nv cfgN (npos u i) _ hipN hN0) hstepN, ?_⟩
      refine ⟨by omega, by simp, by simp [hsucc, hc1'], by simp [hdp], by simp [htape],
        by simp [hin], by simp [hout]⟩
  | GetChar =>
    have hc1' : r.2 = 1 := hcnt (by rw [hk]; rfl)
    obtain ⟨hCins, hNins⟩ := hcu.1 (by simp [hk])
    rw [show unitInstr r = .GetChar by simp [unitInstr, hk]] at hCins
    have hN0 : Nv[npos u i]? = some .GetChar := by
      have := hNins 0 (by omega)
      rwa [show r.1.as_instruction = .GetChar by simp [hk, OpCode.as_instruction],
        Nat.add_zero] at this
    rcases hib : cfgN.input with _ | ⟨b, brest⟩
    · left
      have hstepC : stepInstr .GetChar cfgC = .next cfgC := by
        simp only [stepInstr, hin, hib]
      have hstepN : stepInstr .GetChar cfgN = .next cfgN := by
        simp only [stepInstr, hib]
      refine ⟨_, _, 1, i, le_refl 1,
        stepsN_one C cfgC _ _ (ip_nonneg cfgC i hipC) (fetch_at C cfgC i _ hipC hCins) hstepC,
        stepsN_one Nv cfgN _ _ (ip_nonneg cfgN (npos u i) hipN)
          (fetch_at Nv cfgN (npos u i) _ hipN hN0) hstepN,
        ⟨by omega, hipC, hipN, hdp, htape, hin, hout⟩⟩
    · rcases hv : cfgN.tape[cfgN.dp]? with _ | v
      · right
        refine ⟨⟨1, .indexOutOfBounds, runFuel_fault_one C cfgC .GetChar _
            (ip_nonneg cfgC i hipC) (fetch_at C cfgC i _ hipC hCins)
            (by simp only [stepInstr, hin, hib, htdE, hv])⟩,
          ⟨1, .indexOutOfBounds, runFuel_fault_one Nv cfgN .GetChar _
            (ip_nonneg cfgN (npos u i) hipN) (fetch_at Nv cfgN (npos u i) _ hipN hN0)
            (by simp only [stepInstr, hib, hv])⟩⟩
      · left
        have hstepC : stepInstr .GetChar cfgC =
            .next { cfgC with
              ip := ((i + 1 : Nat) : Int),
              tape := cfgC.tape.set cfgC.dp b,
              input := brest } := by
          simp only [stepInstr, hin, hib, htdE, hv]
          rw [hipC]
          push_cast
          rfl
        have hstepN : stepInstr .GetChar cfgN =
            .next { cfgN with
              ip := ((npos u i + 1 : Nat) : Int),
              tape := cfgN.tape.set cfgN.dp b,
              input := brest } := by
          simp only [stepInstr, hib, hv]
          rw [hipN]
          push_cast
          rfl
        refine ⟨_, _, 1, i + 1, le_refl 1,
          stepsN_one C cfgC _ _ (ip_nonneg cfgC i hipC) (fetch_at C cfgC i _ hipC hCins) hstepC,
          stepsN_one Nv cfgN _ _ (ip_nonneg cfgN (npos u i) hipN)
            (fetch_at Nv cfgN (npos u i) _ hipN hN0) hstepN, ?_⟩
        refine ⟨by omega, by simp, by simp [hsucc, hc1'], by simp [hdp], ?_,
          by simp, by simp [hout]⟩
        simp [htape, hdp]
  | LoopHead =>
    have hc1' : r.2 = 1 := hcnt (by rw [hk]; rfl)
    obtain ⟨e, re, heL, hie, hre, hreE, hCj, hCe, hNj, hNe⟩ := hcu.2.1 hk
    have hreMem : re ∈ u := by
      rcases List.getElem?_eq_some.mp hre with ⟨hlt, hget⟩
      exact hget ▸ List.getElem_mem hlt
    have hre1 : re.2 = 1 := (hwf re hreMem).2 (by rw [hreE]; rfl)
    have hesucc := npos_succ u e re hre
    rcases hv : cfgN.tape[cfgN.dp]? with _ | v
    · right
      refine ⟨⟨1, .indexOutOfBounds, runFuel_fault_one C cfgC (.LoopHead e) _
          (ip_nonneg cfgC i hipC) (fetch_at C cfgC i _ hipC hCj)
          (by simp only [stepInstr, htdE, hv])⟩,
        ⟨1, .indexOutOfBounds, runFuel_fault_one Nv cfgN (.LoopHead (npos u e)) _
          (ip_nonneg cfgN (npos u i) hipN) (fetch_at Nv cfgN (npos u i) _ hipN hNj)
          (by simp only [stepInstr, hv])⟩⟩
    · left
      by_cases hz : v = 0
      · have hstepC : stepInstr (.LoopHead e) cfgC =
            .next { cfgC with ip := ((e + 1 : Nat) : Int) } := by
          simp only [stepInstr, htdE, hv, hz, if_pos]
          push_cast
          rfl
        have hstepN : stepInstr (.LoopHead (npos u e)) cfgN =
            .next { cfgN with ip := ((npos u e + 1 : Nat) : Int) } := by
          simp only [stepInstr, hv, hz, if_pos]
          push_cast
          rfl
        refine ⟨_, _, 1, e + 1, le_refl 1,
          stepsN_one C cfgC _ _ (ip_nonneg cfgC i hipC) (fetch_at C cfgC i _ hipC hCj) hstepC,
          stepsN_one Nv cfgN _ _ (ip_nonneg cfgN (npos u i) hipN)
            (fetch_at Nv cfgN (npos u i) _ hipN hNj) hstepN, ?_⟩
        refine ⟨by omega, by simp, by simp [hesucc, hre1], by simp [hdp],
          by simp [htape], by simp [hin], by simp [hout]⟩
      · have hstepC : stepInstr (.LoopHead e) cfgC =
            .next { cfgC with ip := ((i + 1 : Nat) : Int) } := by
          simp only [stepInstr, htdE, hv, if_neg hz]
          rw [hipC]
          push_cast
          rfl
        have hstepN : stepInstr (.LoopHead (npos u e)) cfgN =
            .next { cfgN with ip := ((npos u i + 1 : Nat) : Int) } := by
          simp only [stepInstr, hv, if_neg hz]
          rw [hipN]
          push_cast
          rfl
        refine ⟨_, _, 1, i + 1, le_refl 1,
          stepsN_one C cfgC _ _ (ip_nonneg cfgC i hipC) (fetch_at C cfgC i _ hipC hCj) hstepC,
          stepsN_one Nv cfgN _ _ (ip_nonneg cfgN (npos u i) hipN)
            (fetch_at Nv cfgN (npos u i) _ hipN hNj) hstepN, ?_⟩
        refine ⟨by omega, by simp, by simp [hsucc, hc1'], by simp [hdp],
          by simp [htape], by simp [hin], by simp [hout]⟩
  | LoopEnd =>
    have hc1' : r.2 = 1 := hcnt (by rw [hk]; rfl)
    obtain ⟨p, rp, hpi, hrp, hrpH, hCj, hCp, hNj, hNp⟩ := hcu.2.2 hk
    rcases hv : cfgN.tape[cfgN.dp]? with _ | v
    · right
      refine ⟨⟨1, .indexOutOfBounds, runFuel_fault_one C cfgC (.LoopEnd p) _
          (ip_nonneg cfgC i hipC) (fetch_at C cfgC i _ hipC hCj)
          (by simp only [stepInstr, htdE, hv])⟩,
        ⟨1, .indexOutOfBounds, runFuel_fault_one Nv cfgN (.LoopEnd (npos u p)) _
          (ip_nonneg cfgN (npos u i) hipN) (fetch_at Nv cfgN (npos u i) _ hipN hNj)
          (by simp only [stepInstr, hv])⟩⟩
    · left
      by_cases hz : v = 0
      · have hstepC : stepInstr (.LoopEnd p) cfgC =
            .next { cfgC with ip := ((i + 1 : Nat) : Int) } := by
          simp only [stepInstr, htdE, hv, hz, if_pos]
          rw [hipC]
          push_cast
          rfl
        have hstepN : stepInstr (.LoopEnd (npos u p)) cfgN =
            .next { cfgN with ip := ((npos u i + 1 : Nat) : Int) } := by
          simp only [stepInstr, hv, hz, if_pos]
          rw [hipN]
          push_cast
          rfl
        refine ⟨_, _, 1, i + 1, le_refl 1,
          stepsN_one C cfgC _ _ (ip_nonneg cfgC i hipC) (fetch_at C cfgC i _ hipC hCj) hstepC,
          stepsN_one Nv cfgN _ _ (ip_nonneg cfgN (npos u i) hipN)
            (fetch_at Nv cfgN (npos u i) _ hipN hNj) hstepN, ?_⟩
        refine ⟨by omega, by simp, by simp [hsucc, hc1'], by simp [hdp],
          by simp [htape], by simp [hin], by simp [hout]⟩
      · have hstepC : stepInstr (.LoopEnd p) cfgC =
            .next { cfgC with ip := ((p : Nat) : Int) } := by
          simp only [stepInstr, htdE, hv, if_neg hz]
        have hstepN : stepInstr (.LoopEnd (npos u p)) cfgN =
            .next { cfgN with ip := ((npos u p : Nat) : Int) } := by
          simp only [stepInstr, hv, if_neg hz]
        refine ⟨_, _, 1, p, le_refl 1,
          stepsN_one C cfgC _ _ (ip_nonneg cfgC i hipC) (fetch_at C cfgC i _ hipC hCj) hstepC,
          stepsN_one Nv cfgN _ _ (ip_nonneg cfgN (npos u i) hipN)
            (fetch_at Nv cfgN (npos u i) _ hipN hNj) hstepN, ?_⟩
        refine ⟨by omega, by simp, by simp, by simp [hdp],
          by simp [htape], by simp [hin], by simp [hout]⟩

/-- Forward simulation: a terminating run of the compressed stream from a
related state yields a terminating naive run with the same tape and
output. -/
theorem simToNaive (u : List (OpCode × Nat)) (hwf : UnitsWF u)
    (C Nv : List Instruction) (hCl : C.length = u.length)
    (hNl : Nv.length = npos u u.length)
    (hcorr : ∀ j, j < u.length → UnitCorr u C Nv j) :
    ∀ (fC : Nat) (i : Nat) (cfgC cfgN : Config), SimRel u i cfgC cfgN →
      ∀ d, runFuel C fC cfgC = RunResult.done d →
      ∃ fN e, runFuel Nv fN cfgN = RunResult.done e ∧
        e.tape = d.tape ∧ e.output = d.output := by
  intro fC
  induction fC with
  | zero =>
    intro i cfgC cfgN hR d hd
    rw [runFuel] at hd
    exact RunResult.noConfusion hd
  | succ g ih =>
    intro i cfgC cfgN hR d hd
    obtain ⟨hle, hipC, hipN, hdp, htape, hin, hout⟩ := hR
    by_cases hterm : i = u.length
    · have hncC : ¬(0 ≤ cfgC.ip ∧ cfgC.ip < (C.length : Int)) := by
        rw [hipC, hterm, hCl]
        omega
      have hd' := runFuel_done C g cfgC hncC
      obtain rfl : cfgC = d := RunResult.done.inj (hd'.symm.trans hd)
      have hncN : ¬(0 ≤ cfgN.ip ∧ cfgN.ip < (Nv.length : Int)) := by
        rw [hipN, hterm, ← hNl]
        omega
      exact ⟨1, cfgN, runFuel_done Nv 0 cfgN hncN, htape.symm, hout.symm⟩
    · have hi : i < u.length := lt_of_le_of_ne hle hterm
      rcases macroStep u hwf C Nv hcorr i hi cfgC cfgN
          ⟨hle, hipC, hipN, hdp, htape, hin, hout⟩ with
        ⟨cfgC', cfgN', kN, i', hk1, hsC, hsN, hR'⟩ | ⟨⟨f1, fa1, hf1⟩, _⟩
      · rw [stepsN_runFuel_shift C 1 cfgC cfgC' hsC g] at hd
        obtain ⟨fN, e, he, ht, ho⟩ := ih i' cfgC' cfgN' hR' d hd
        refine ⟨fN + kN, e, ?_, ht, ho⟩
        rw [stepsN_runFuel_shift Nv kN cfgN cfgN' hsN fN]
        exact he
      · exact absurd hd (fault_not_done C f1 cfgC fa1 hf1 (g + 1) d)

/-- Backward simulation: a terminating run of the naive stream from a
related state yields a terminating compressed run with the same tape and
output. -/
theorem simToCompressed (u : List (OpCode × Nat)) (hwf : UnitsWF u)
    (C Nv : List Instruction) (hCl : C.length = u.length)
    (hNl : Nv.length = npos u u.length)
    (hcorr : ∀ j, j < u.length → UnitCorr u C Nv j) :
    ∀ (B fN : Nat) (i : Nat) (cfgC cfgN : Config), fN ≤ B →
      SimRel u i cfgC cfgN →
      ∀ e, runFuel Nv fN cfgN = RunResult.done e →
      ∃ fC d, runFuel C fC cfgC = RunResult.done d ∧
        d.tape = e.tape ∧ d.output = e.output := by
  intro B
  induction B with
  | zero =>
    intro fN i cfgC cfgN hB hR e he
    obtain rfl : fN = 0 := by omega
    rw [runFuel] at he
    exact RunResult.noConfusion he
  | succ Bq ih =>
    intro fN i cfgC cfgN hB hR e he
    obtain ⟨hle, hipC, hipN, hdp, htape, hin, hout⟩ := hR
    by_cases hterm : i = u.length
    · have hncN : ¬(0 ≤ cfgN.ip ∧ cfgN.ip < (Nv.length : Int)) := by
        rw [hipN, hterm, ← hNl]
        omega
      cases fN with
      | zero =>
        rw [runFuel] at he
        exact RunResult.noConfusion he
      | succ fq =>
        have he' := runFuel_done Nv fq cfgN hncN
        obtain rfl : cfgN = e := RunResult.done.inj (he'.symm.trans he)
        have hncC : ¬(0 ≤ cfgC.ip ∧ cfgC.ip < (C.length : Int)) := by
          rw [hipC, hterm, hCl]
          omega
        exact ⟨1, cfgC, runFuel_done C 0 cfgC hncC, htape, hout⟩
    · have hi : i < u.length := lt_of_le_of_ne hle hterm
      rcases macroStep u hwf C Nv hcorr i hi cfgC cfgN
          ⟨hle, hipC, hipN, hdp, htape, hin, hout⟩ with
        ⟨cfgC', cfgN', kN, i', hk1, hsC, hsN, hR'⟩ | ⟨_, ⟨f1, fa1, hf1⟩⟩
      · have hkle : kN ≤ fN := stepsN_le_of_done Nv kN cfgN cfgN' fN e hsN he
        have hshift := stepsN_runFuel_shift Nv kN cfgN cfgN' hsN (fN - kN)
        rw [show (fN - kN) + kN = fN by omega] at hshift
        rw [hshift] at he
        obtain ⟨fC, d, hd, ht, ho⟩ := ih (fN - kN) i' cfgC' cfgN' (by omega) hR' e he
        refine ⟨fC + 1, d, ?_, ht, ho⟩
        rw [stepsN_runFuel_shift C 1 cfgC cfgC' hsC fC]
        exact hd
      · exact absurd he (fault_not_done Nv f1 cfgN fa1 hf1 fN e)

/-- C1: for a source program without I/O opcodes, the run-length-compressed,
jump-resolved stream produced by `Program::bind` reaches a final state with
a given tape exactly when the jump-resolved naive one-instruction-per-opcode
stream of the same program does. -/
theorem c1_compression_refinement (ops : List OpCode)
    (hNoInOut : ∀ c ∈ ops, c ≠ OpCode.PutChar ∧ c ≠ OpCode.GetChar)
    (C Nv : List Instruction)
    (hC : Program.bind ops = some C)
    (hN : bindLoops (ops.map OpCode.as_instruction) = some Nv)
    (tape input t : List Nat) :
    (∃ f d, runFuel C f (initConfig tape input) = RunResult.done d ∧ d.tape = t) ↔
    (∃ f e, runFuel Nv f (initConfig tape input) = RunResult.done e ∧ e.tape = t) := by
  rw [Program.bind] at hC
  obtain ⟨hCl, hNl, hcorr⟩ := bind_correspondence ops C Nv hC hN
  have hwf := units_wf ops
  have hR0 : SimRel (units ops) 0 (initConfig tape input) (initConfig tape input) :=
    ⟨Nat.zero_le _, rfl, by rw [npos_zero]; rfl, rfl, rfl, rfl, rfl⟩
  constructor
  · rintro ⟨f, d, hd, rfl⟩
    obtain ⟨fN, e, he, ht, _⟩ :=
      simToNaive (units ops) hwf C Nv hCl hNl hcorr f 0 _ _ hR0 d hd
    exact ⟨fN, e, he, ht⟩
  · rintro ⟨f, e, he, rfl⟩
    obtain ⟨fC, d, hd, ht, _⟩ :=
      simToCompressed (units ops) hwf C Nv hCl hNl hcorr f f 0 _ _ (le_refl f) hR0 e he
    exact ⟨fC, d, hd, ht⟩

/-- Witness for C1 at the concrete I/O-free program `++`. -/
theorem c1_compression_refinement_witness :
    (∀ c ∈ ([OpCode.IncrementValue, OpCode.IncrementValue] : List OpCode),
      c ≠ OpCode.PutChar ∧ c ≠ OpCode.GetChar) ∧
    Program.bind [OpCode.IncrementValue, OpCode.IncrementValue] =
      some [Instruction.IncrementValue 2] ∧
    bindLoops ([OpCode.IncrementValue, OpCode.IncrementValue].map
        OpCode.as_instruction) =
      some [Instruction.IncrementValue 1, Instruction.IncrementValue 1] ∧
    ((∃ f d, runFuel [Instruction.IncrementValue 2] f (initConfig [0] []) =
        RunResult.done d ∧ d.tape = [2]) ↔
     (∃ f e, runFuel [Instruction.IncrementValue 1, Instruction.IncrementValue 1]
        f (initConfig [0] []) = RunResult.done e ∧ e.tape = [2])) :=
  ⟨by decide, by decide, by decide,
    c1_compression_refinement [OpCode.IncrementValue, OpCode.IncrementValue]
      (by decide) [Instruction.IncrementValue 2]
      [Instruction.IncrementValue 1, Instruction.IncrementValue 1]
      (by decide) (by decide) [0] [] [2]⟩
